import Mathlib

/-!
Shallow embedding of the MST program (graph builder + Prim's algorithm engine).

The source consists of two core functions:
* `build_adjacency_list` validates raw edges against a vertex count and builds a
  symmetric adjacency structure, tracing every accept/reject decision;
* `compute_mst` runs Prim's algorithm with a lazy-deletion min-priority queue
  (Python `heapq`, keyed by the tuple `(weight, vertex, predecessor)`), producing
  the selected MST edges as a symmetric adjacency structure, the total cost, and
  a trace.

Python machine behaviour is embedded as follows: Python `int` is `Int`;
list indexing is checked (`listGetE`, an out-of-range index is the `IndexError`
case of `Except`); the binary heap is modelled by a list kept sorted under the
lexicographic tuple order (`tripleLe`), whose observable pop/push behaviour
coincides with `heapq`; the `while` loop is driven by fuel, with the fuel bound
proved sufficient (`mstLoop_fuel_adequate`), so results never depend on it.
-/

namespace MST

/-- Runtime failures of the embedded Python code: `indexError` models a Python
`IndexError` (or popping an empty heap); `outOfFuel` is the artificial fuel
exhaustion of the loop embedding, proved unreachable. -/
inductive RunError where
  | indexError : RunError
  | outOfFuel : RunError
deriving DecidableEq, Repr

/-- Checked list indexing: models Python `xs[i]` for `0 ≤ i < len(xs)`;
anything else is an `IndexError`. -/
def listGetE (xs : List α) (i : Int) : Except RunError α :=
  if h : 0 ≤ i ∧ i.toNat < xs.length then .ok (xs.get ⟨i.toNat, h.2⟩)
  else .error .indexError

/-- Checked `xs[i].append(e)` on a list of lists (Python list mutation modelled
by rebuilding the outer list). -/
def appendAt (l : List (List (Int × Int))) (i : Int) (e : Int × Int) :
    Except RunError (List (List (Int × Int))) :=
  if h : 0 ≤ i ∧ i.toNat < l.length then
    .ok (l.set i.toNat (l.get ⟨i.toNat, h.2⟩ ++ [e]))
  else .error .indexError

/-- Unchecked `xs[i].append(e)`; used by the graph builder, whose validation
guarantees the index is in range. -/
def appendAtD (l : List (List (Int × Int))) (i : Int) (e : Int × Int) :
    List (List (Int × Int)) :=
  l.set i.toNat (l.getD i.toNat [] ++ [e])

/-- Python `sum(visited)` for a list of booleans. -/
def countTrue : List Bool → Nat
  | [] => 0
  | b :: l => (if b then 1 else 0) + countTrue l

/-- Total number of (neighbor, weight) entries of an adjacency structure. -/
def totalEntries (adj : List (List (Int × Int))) : Nat :=
  (adj.map List.length).sum

/-- Sum of the weights of all entries of an adjacency structure (each
undirected edge is stored twice, so its weight is counted twice). -/
def weightSum (adj : List (List (Int × Int))) : Int :=
  (adj.map (fun l => (l.map (fun e => e.2)).sum)).sum

/-- Lexicographic order on `(weight, vertex, predecessor)` tuples: exactly the
order Python uses to compare the tuples pushed on the heap. -/
def tripleLe (a b : Int × Int × Int) : Prop :=
  a.1 < b.1 ∨ (a.1 = b.1 ∧ (a.2.1 < b.2.1 ∨ (a.2.1 = b.2.1 ∧ a.2.2 ≤ b.2.2)))

instance : DecidableRel tripleLe := fun a b => by
  unfold tripleLe
  exact inferInstance

/-- `heapq.heappush`: insert into the sorted-list model of the heap, keeping it
sorted under the tuple order. -/
def pqPush (e : Int × Int × Int) : List (Int × Int × Int) → List (Int × Int × Int)
  | [] => [e]
  | x :: xs => if tripleLe e x then e :: x :: xs else x :: pqPush e xs

/-- State of Prim's loop: `visited`, `priority_queue` (sorted-list heap model),
`mst_adjacency_list`, `total_cost` and the output trace. -/
structure MSTState where
  visited : List Bool
  priority_queue : List (Int × Int × Int)
  mst_adjacency_list : List (List (Int × Int))
  total_cost : Int
  trace : List String
deriving DecidableEq, Repr

/-- Trace line `Edge Added: f, t, w` emitted for each direction of an accepted
edge. -/
def edgeAddedLine (f t w : Int) : String :=
  "Edge Added: " ++ toString f ++ ", " ++ toString t ++ ", " ++ toString w

/-- Trace line for an edge rejected because the vertex count is zero. -/
def emptyGraphEdgeLine (f t w : Int) : String :=
  "This is an empty graph - Cannot add edge: " ++ toString f ++ ", " ++
    toString t ++ ", " ++ toString w

/-- Trace line for an edge rejected for an out-of-range endpoint (the source's
"vortex" typo is preserved). -/
def invalidVortexLine (f t w : Int) : String :=
  "This is an invalid source or destination vortex - Cannot add edge: " ++
    toString f ++ ", " ++ toString t ++ ", " ++ toString w ++ " - Request ignored"

/-- Trace line for an edge rejected for a non-positive weight. -/
def invalidWeightLine (f t w : Int) : String :=
  "This is an invalid weight - Cannot add edge: " ++ toString f ++ ", " ++
    toString t ++ ", " ++ toString w ++ " - Request ignored"

/-- Trace line `Edge: t - f weight: w` emitted when Prim's loop selects an
edge. -/
def edgeSelectedLine (to_node from_node edge_weight : Int) : String :=
  "Edge: " ++ toString to_node ++ " - " ++ toString from_node ++ " weight: " ++
    toString edge_weight

/-- Trace line for the total cost of the MST. -/
def totalCostLine (c : Int) : String :=
  "Total cost of MST: " ++ toString c

/-- One `(to_node, cost)` pair formatted as in the source. -/
def pairStr (p : Int × Int) : String :=
  "(" ++ toString p.1 ++ ", " ++ toString p.2 ++ ")"

/-- One line of `print_adjacency_list`. -/
def adjLine (i : Nat) (nbrs : List (Int × Int)) : String :=
  "Adj[" ++ toString i ++ "] -> " ++ String.intercalate " " (nbrs.map pairStr)

/-- `print_adjacency_list`: the title line followed by one line per slot. -/
def print_adjacency_list (adj : List (List (Int × Int))) (title : String) :
    List String :=
  title :: (adj.enum.map (fun p => adjLine p.1 p.2))

/-- The state of the graph builder: the adjacency structure under construction
plus the trace emitted so far. -/
structure BuildState where
  adjacency_list : List (List (Int × Int))
  trace : List String
deriving DecidableEq, Repr

/-- One iteration of `build_adjacency_list`'s edge loop: validate a candidate
edge `(from_node, to_node, edge_weight)` and either reject it with a diagnostic
or append it in both directions. -/
def processEdge (num_vertices : Int) (s : BuildState) (e : Int × Int × Int) :
    BuildState :=
  let from_node := e.1
  let to_node := e.2.1
  let edge_weight := e.2.2
  if num_vertices = 0 then
    { s with trace := s.trace ++ [emptyGraphEdgeLine from_node to_node edge_weight] }
  else if from_node < 0 ∨ to_node < 0 ∨ from_node ≥ num_vertices ∨ to_node ≥ num_vertices then
    { s with trace := s.trace ++ [invalidVortexLine from_node to_node edge_weight] }
  else if edge_weight ≤ 0 then
    { s with trace := s.trace ++ [invalidWeightLine from_node to_node edge_weight] }
  else
    { adjacency_list :=
        appendAtD (appendAtD s.adjacency_list from_node (to_node, edge_weight))
          to_node (from_node, edge_weight),
      trace := s.trace ++ [edgeAddedLine from_node to_node edge_weight,
                           edgeAddedLine to_node from_node edge_weight] }

/-- `build_adjacency_list`: fold the per-edge validation over the raw edge
list, starting from `num_vertices` empty slots. -/
def build_adjacency_list (num_vertices : Int) (edges : List (Int × Int × Int)) :
    BuildState :=
  List.foldl (processEdge num_vertices)
    ⟨List.replicate num_vertices.toNat [], []⟩ edges

/-- The body of `if from_node != -1:` in Prim's loop: record the newly selected
MST edge in both directions, add its weight to the total cost, and emit the
trace line. -/
def selectEdge (s : MSTState) (edge_weight to_node from_node : Int) :
    Except RunError (List (List (Int × Int)) × Int × List String) :=
  if from_node = -1 then .ok (s.mst_adjacency_list, s.total_cost, s.trace)
  else
    match appendAt s.mst_adjacency_list from_node (to_node, edge_weight) with
    | .error e => .error e
    | .ok m1 =>
      match appendAt m1 to_node (from_node, edge_weight) with
      | .error e => .error e
      | .ok m2 =>
        .ok (m2, s.total_cost + edge_weight,
             s.trace ++ [edgeSelectedLine to_node from_node edge_weight])

/-- The `for neighbor, cost in adjacency_list[to_node]:` loop: push
`(cost, neighbor, to_node)` for every not-yet-visited neighbor. -/
def pushAll (visited : List Bool) (to_node : Int) :
    List (Int × Int) → List (Int × Int × Int) → Except RunError (List (Int × Int × Int))
  | [], pq => .ok pq
  | p :: rest, pq =>
    match listGetE visited p.1 with
    | .error e => .error e
    | .ok true => pushAll visited to_node rest pq
    | .ok false => pushAll visited to_node rest (pqPush (p.2, p.1, to_node) pq)

/-- The part of a loop iteration that runs when the popped vertex is new: mark
it visited, record the selected edge (unless the predecessor is the sentinel
`-1`), and push all unvisited neighbors. -/
def visitVertex (adj : List (List (Int × Int))) (s : MSTState)
    (rest : List (Int × Int × Int)) (edge_weight to_node from_node : Int) :
    Except RunError MSTState :=
  match selectEdge s edge_weight to_node from_node with
  | .error e => .error e
  | .ok etc =>
    match listGetE adj to_node with
    | .error e => .error e
    | .ok slot =>
      match pushAll (s.visited.set to_node.toNat true) to_node slot rest with
      | .error e => .error e
      | .ok pq1 =>
        .ok ⟨s.visited.set to_node.toNat true, pq1, etc.1, etc.2.1, etc.2.2⟩

/-- One iteration of Prim's `while` loop: pop the minimum tuple; discard it if
its vertex is already visited (lazy deletion), otherwise visit the vertex. -/
def mstStep (adj : List (List (Int × Int))) (s : MSTState) :
    Except RunError MSTState :=
  match s.priority_queue with
  | [] => .error .indexError
  | e :: rest =>
    match listGetE s.visited e.2.1 with
    | .error err => .error err
    | .ok true => .ok { s with priority_queue := rest }
    | .ok false => visitVertex adj s rest e.1 e.2.1 e.2.2

/-- Termination measure helper: the number of adjacency entries still
scannable, i.e. the summed slot lengths over not-yet-visited vertices (walking
`visited` and the adjacency structure in lockstep). -/
def potential : List Bool → List (List (Int × Int)) → Nat
  | [], _ => 0
  | _ :: _, [] => 0
  | b :: bs, a :: as => (if b then 0 else a.length) + potential bs as

/-- The loop guard `priority_queue and sum(visited) < num_vertices` as a
proposition. -/
def loopCond (n : Int) (s : MSTState) : Prop :=
  s.priority_queue ≠ [] ∧ ((countTrue s.visited : Int) < n)

instance (n : Int) (s : MSTState) : Decidable (loopCond n s) := by
  unfold loopCond
  exact inferInstance

/-- Termination measure of the loop: queue length plus the entries of the
not-yet-visited slots; every iteration strictly decreases it. -/
def stateMeasure (adj : List (List (Int × Int))) (s : MSTState) : Nat :=
  s.priority_queue.length + potential s.visited adj

/-- `while priority_queue and sum(visited) < num_vertices:`, driven by fuel.
Fuel exhaustion is an artificial error proved unreachable for the fuel used by
`compute_mst`. -/
def mstLoop (n : Int) (adj : List (List (Int × Int))) :
    Nat → MSTState → Except RunError MSTState
  | 0, _ => .error .outOfFuel
  | fuel + 1, s =>
    if loopCond n s then
      match mstStep adj s with
      | .error e => .error e
      | .ok s1 => mstLoop n adj fuel s1
    else .ok s

/-- Initial loop state: no vertex visited, the queue holding only the sentinel
`(0, 0, -1)`, empty MST slots, cost `0`, and the header trace line. -/
def initState (n : Int) : MSTState :=
  ⟨List.replicate n.toNat false, [(0, 0, -1)], List.replicate n.toNat [], 0,
   ["Minimum Spanning Tree"]⟩

/-- Fuel used by `compute_mst`: one unit per possible push (the number of
adjacency entries plus the sentinel) plus one to observe the exit condition. -/
def initFuel (adj : List (List (Int × Int))) : Nat :=
  totalEntries adj + 2

/-- `compute_mst`: the empty-graph branch for `num_vertices == 0`, otherwise
Prim's loop followed by the total-cost line and the MST adjacency listing. -/
def compute_mst (num_vertices : Int) (adjacency_list : List (List (Int × Int))) :
    Except RunError MSTState :=
  if num_vertices = 0 then
    .ok ⟨[], [], [], 0, ["This is an empty graph - No MST"]⟩
  else
    match mstLoop num_vertices adjacency_list (initFuel adjacency_list)
        (initState num_vertices) with
    | .error e => .error e
    | .ok s =>
      .ok { s with trace :=
              s.trace ++ [totalCostLine s.total_cost] ++
                print_adjacency_list s.mst_adjacency_list "MST Graph - Adjacency List" }

/-- One step along the adjacency structure: `v` occurs (with some weight) in
`u`'s slot. -/
def adjStepRel (adj : List (List (Int × Int))) (u v : Int) : Prop :=
  0 ≤ u ∧ ∃ w, (v, w) ∈ adj.getD u.toNat []

/-- Reachability along an adjacency structure. -/
def Reach (adj : List (List (Int × Int))) (u v : Int) : Prop :=
  Relation.ReflTransGen (adjStepRel adj) u v

/-- All neighbors mentioned by an adjacency structure are vertices, i.e. lie in
`[0, n)`: this is the data model of an adjacency structure on `n` vertices. -/
def WFNbrs (n : Int) (adj : List (List (Int × Int))) : Prop :=
  ∀ slot ∈ adj, ∀ p ∈ slot, 0 ≤ p.1 ∧ p.1 < n

/-- Symmetry of an adjacency structure: an entry `(v, w)` in slot `u` is
mirrored by `(u, w)` in slot `v`. -/
def SymmAdj (a : List (List (Int × Int))) : Prop :=
  ∀ (i : Nat) (v w : Int), (v, w) ∈ a.getD i [] →
    0 ≤ v ∧ ((i : Int), w) ∈ a.getD v.toNat []

deriving instance DecidableEq for Except

/-- Invariant of Prim's loop that holds from the initial state on, for every
input: the visited and MST structures have equal length, queue predecessors
are the sentinel or visited vertices, the partial MST is symmetric, has no
self-loop entries, mentions only visited vertices, and twice the running cost
is the summed weight of its entries. -/
structure BaseInv (s : MSTState) : Prop where
  lenEq : s.visited.length = s.mst_adjacency_list.length
  qpOK : ∀ e ∈ s.priority_queue, e.2.2 = -1 ∨
    (0 ≤ e.2.2 ∧ e.2.2.toNat < s.visited.length ∧
      s.visited.getD e.2.2.toNat false = true)
  symm : SymmAdj s.mst_adjacency_list
  noSelf : ∀ (i : Nat) (v w : Int),
    (v, w) ∈ s.mst_adjacency_list.getD i [] → v ≠ (i : Int)
  emptyUnvisited : ∀ i : Nat, s.visited.getD i false = false →
    s.mst_adjacency_list.getD i [] = []
  costEq : 2 * s.total_cost = weightSum s.mst_adjacency_list

/-- Invariant of Prim's loop for a well-formed adjacency structure on `n`
vertices, established after the first (sentinel) iteration: vertex `0` is
visited, all queue entries carry in-range vertices and visited in-range
predecessors, every adjacency entry of a visited vertex is visited or queued,
the partial MST carries exactly `countTrue visited - 1` edges (each stored
twice), and every visited vertex is reachable from `0` inside the partial
MST. -/
structure LoopInv (n : Int) (adj : List (List (Int × Int))) (s : MSTState) :
    Prop where
  vlen : s.visited.length = n.toNat
  mlen : s.mst_adjacency_list.length = n.toNat
  v0 : s.visited.getD 0 false = true
  qv : ∀ e ∈ s.priority_queue, 0 ≤ e.2.1 ∧ e.2.1 < n
  qp : ∀ e ∈ s.priority_queue, 0 ≤ e.2.2 ∧ e.2.2 < n ∧
    s.visited.getD e.2.2.toNat false = true
  frontier : ∀ u : Nat, u < s.visited.length →
    s.visited.getD u false = true → ∀ p ∈ adj.getD u [],
      s.visited.getD p.1.toNat false = true ∨
        ∃ c q, (c, p.1, q) ∈ s.priority_queue
  countEq : totalEntries s.mst_adjacency_list + 2 = 2 * countTrue s.visited
  reach : ∀ v : Int, 0 ≤ v → v < n → s.visited.getD v.toNat false = true →
    Reach s.mst_adjacency_list 0 v

/-! ### Basic lemmas about lists, indexing and counting -/

theorem getD_set_self (l : List α) (i : Nat) (a d : α) (h : i < l.length) :
    (l.set i a).getD i d = a := by
  induction l generalizing i with
  | nil => simp at h
  | cons x xs ih =>
    cases i with
    | zero => simp [List.set]
    | succ j =>
      simp only [List.set, List.getD_cons_succ]
      exact ih j (by simpa using h)

theorem getD_set_ne (l : List α) (i j : Nat) (a d : α) (h : i ≠ j) :
    (l.set i a).getD j d = l.getD j d := by
  induction l generalizing i j with
  | nil => simp [List.set]
  | cons x xs ih =>
    cases i with
    | zero =>
      cases j with
      | zero => exact absurd rfl h
      | succ k => simp [List.set]
    | succ i' =>
      cases j with
      | zero => simp [List.set]
      | succ k =>
        simp only [List.set, List.getD_cons_succ]
        exact ih i' k (fun hc => h (by simp [hc]))

theorem getD_of_le (l : List α) (i : Nat) (d : α) (h : l.length ≤ i) :
    l.getD i d = d :=
  List.getD_eq_default l d h

theorem getD_eq_get (l : List α) (i : Nat) (d : α) (h : i < l.length) :
    l.getD i d = l.get ⟨i, h⟩ := by
  rw [List.getD_eq_getElem l d h]
  simp

theorem getD_replicate_lt (k i : Nat) (x d : α) (h : i < k) :
    (List.replicate k x).getD i d = x := by
  rw [getD_eq_get _ _ _ (by simpa using h)]
  simp

theorem countTrue_le_length (l : List Bool) : countTrue l ≤ l.length := by
  induction l with
  | nil => simp [countTrue]
  | cons b bs ih =>
    simp only [countTrue, List.length_cons]
    cases b <;> simp <;> omega

theorem countTrue_set_true (l : List Bool) (i : Nat) (h : i < l.length)
    (hf : l.getD i false = false) : countTrue (l.set i true) = countTrue l + 1 := by
  induction l generalizing i with
  | nil => simp at h
  | cons b bs ih =>
    cases i with
    | zero =>
      simp only [List.getD_cons_zero] at hf
      simp [List.set, countTrue, hf]
      omega
    | succ j =>
      simp only [List.getD_cons_succ] at hf
      simp only [List.set, countTrue]
      rw [ih j (by simpa using h) hf]
      omega

theorem countTrue_replicate_false (k : Nat) :
    countTrue (List.replicate k false) = 0 := by
  induction k with
  | zero => simp [countTrue]
  | succ n ih => simpa [List.replicate, countTrue] using ih

theorem countTrue_eq_length_all (l : List Bool) (h : countTrue l = l.length) :
    ∀ i, i < l.length → l.getD i false = true := by
  induction l with
  | nil => intro i hi; simp at hi
  | cons b bs ih =>
    intro i hi
    have hle := countTrue_le_length bs
    cases b with
    | false =>
      simp [countTrue] at h
      omega
    | true =>
      cases i with
      | zero => simp
      | succ j =>
        simp only [List.getD_cons_succ]
        simp [countTrue] at h
        exact ih (by omega) j (by simpa using hi)

theorem countTrue_eq_length_of_all (l : List Bool)
    (h : ∀ i, i < l.length → l.getD i false = true) : countTrue l = l.length := by
  induction l with
  | nil => simp [countTrue]
  | cons b bs ih =>
    have hb := h 0 (by simp)
    simp only [List.getD_cons_zero] at hb
    subst hb
    simp only [countTrue, List.length_cons]
    rw [ih (fun i hi => by simpa using h (i + 1) (by simpa using hi))]
    simp
    omega

theorem set_of_le (l : List α) (i : Nat) (a : α) (h : l.length ≤ i) :
    l.set i a = l := by
  induction l generalizing i with
  | nil => simp
  | cons x xs ih =>
    cases i with
    | zero => simp at h
    | succ j => simp [List.set, ih j (by simpa using h)]

theorem totalEntries_cons (a : List (Int × Int)) (l : List (List (Int × Int))) :
    totalEntries (a :: l) = a.length + totalEntries l := by
  simp [totalEntries]

theorem totalEntries_replicate (k : Nat) :
    totalEntries (List.replicate k ([] : List (Int × Int))) = 0 := by
  induction k with
  | zero => simp [totalEntries]
  | succ n ih => simpa [List.replicate, totalEntries_cons] using ih

theorem totalEntries_set_append (l : List (List (Int × Int))) (i : Nat)
    (e : Int × Int) (h : i < l.length) :
    totalEntries (l.set i (l.getD i [] ++ [e])) = totalEntries l + 1 := by
  induction l generalizing i with
  | nil => simp at h
  | cons a as ih =>
    cases i with
    | zero => simp [List.set, totalEntries_cons]; omega
    | succ j =>
      simp only [List.set, List.getD_cons_succ, totalEntries_cons]
      rw [ih j (by simpa using h)]
      omega

theorem weightSum_cons (a : List (Int × Int)) (l : List (List (Int × Int))) :
    weightSum (a :: l) = (a.map (fun e => e.2)).sum + weightSum l := by
  simp [weightSum]

theorem weightSum_replicate (k : Nat) :
    weightSum (List.replicate k ([] : List (Int × Int))) = 0 := by
  induction k with
  | zero => simp [weightSum]
  | succ n ih => simpa [List.replicate, weightSum_cons] using ih

theorem weightSum_set_append (l : List (List (Int × Int))) (i : Nat)
    (e : Int × Int) (h : i < l.length) :
    weightSum (l.set i (l.getD i [] ++ [e])) = weightSum l + e.2 := by
  induction l generalizing i with
  | nil => simp at h
  | cons a as ih =>
    cases i with
    | zero => simp [List.set, weightSum_cons]; ring
    | succ j =>
      simp only [List.set, List.getD_cons_succ, weightSum_cons]
      rw [ih j (by simpa using h)]
      ring

/-! ### Lemmas about checked indexing -/

theorem listGetE_ok_elim {α : Type} {xs : List α} {i : Int} {a : α}
    (h : listGetE xs i = .ok a) :
    0 ≤ i ∧ ∃ hl : i.toNat < xs.length, a = xs.get ⟨i.toNat, hl⟩ := by
  unfold listGetE at h
  split at h
  · rename_i hc
    exact ⟨hc.1, hc.2, by cases h; rfl⟩
  · cases h

theorem listGetE_of_lt {α : Type} {xs : List α} {i : Int} (h0 : 0 ≤ i)
    (hl : i.toNat < xs.length) :
    listGetE xs i = .ok (xs.get ⟨i.toNat, hl⟩) := by
  unfold listGetE
  rw [dif_pos ⟨h0, hl⟩]

theorem listGetE_ok_getD {xs : List Bool} {i : Int} {b : Bool}
    (h : listGetE xs i = .ok b) :
    0 ≤ i ∧ i.toNat < xs.length ∧ xs.getD i.toNat false = b := by
  obtain ⟨h0, hl, rfl⟩ := listGetE_ok_elim h
  exact ⟨h0, hl, getD_eq_get _ _ _ hl⟩

theorem listGetE_total {α : Type} (xs : List α) (i : Int) (h0 : 0 ≤ i)
    (hl : i.toNat < xs.length) : ∃ a, listGetE xs i = .ok a :=
  ⟨_, listGetE_of_lt h0 hl⟩

theorem appendAt_ok_elim {l : List (List (Int × Int))} {i : Int} {e : Int × Int}
    {m : List (List (Int × Int))} (h : appendAt l i e = .ok m) :
    0 ≤ i ∧ i.toNat < l.length ∧ m = l.set i.toNat (l.getD i.toNat [] ++ [e]) := by
  unfold appendAt at h
  split at h
  · rename_i hc
    refine ⟨hc.1, hc.2, ?_⟩
    cases h
    rw [getD_eq_get _ _ _ hc.2]
  · cases h

theorem appendAt_of_lt {l : List (List (Int × Int))} {i : Int} (e : Int × Int)
    (h0 : 0 ≤ i) (hl : i.toNat < l.length) :
    appendAt l i e = .ok (l.set i.toNat (l.getD i.toNat [] ++ [e])) := by
  unfold appendAt
  rw [dif_pos ⟨h0, hl⟩, getD_eq_get _ _ _ hl]

theorem length_appendAt {l : List (List (Int × Int))} {i : Int} {e : Int × Int}
    {m : List (List (Int × Int))} (h : appendAt l i e = .ok m) :
    m.length = l.length := by
  obtain ⟨-, -, rfl⟩ := appendAt_ok_elim h
  simp

/-- Membership in a slot after `appendAt`: either it was already there, or it
is the new entry in the target slot. -/
theorem mem_appendAt_elim {l : List (List (Int × Int))} {i : Int} {e : Int × Int}
    {m : List (List (Int × Int))} (h : appendAt l i e = .ok m)
    {j : Nat} {x : Int × Int} (hx : x ∈ m.getD j []) :
    x ∈ l.getD j [] ∨ (x = e ∧ j = i.toNat) := by
  obtain ⟨h0, hl, rfl⟩ := appendAt_ok_elim h
  by_cases hj : i.toNat = j
  · subst hj
    rw [getD_set_self _ _ _ _ hl] at hx
    rcases List.mem_append.mp hx with hx | hx
    · exact Or.inl hx
    · simp at hx
      exact Or.inr ⟨hx, rfl⟩
  · rw [getD_set_ne _ _ _ _ _ hj] at hx
    exact Or.inl hx

/-- `appendAt` keeps every existing slot entry. -/
theorem mem_appendAt_mono {l : List (List (Int × Int))} {i : Int} {e : Int × Int}
    {m : List (List (Int × Int))} (h : appendAt l i e = .ok m)
    {j : Nat} {x : Int × Int} (hx : x ∈ l.getD j []) :
    x ∈ m.getD j [] := by
  obtain ⟨h0, hl, rfl⟩ := appendAt_ok_elim h
  by_cases hj : i.toNat = j
  · subst hj
    rw [getD_set_self _ _ _ _ hl]
    exact List.mem_append.mpr (Or.inl hx)
  · rw [getD_set_ne _ _ _ _ _ hj]
    exact hx

/-- The new entry is present in the target slot after `appendAt`. -/
theorem mem_appendAt_self {l : List (List (Int × Int))} {i : Int} {e : Int × Int}
    {m : List (List (Int × Int))} (h : appendAt l i e = .ok m) :
    e ∈ m.getD i.toNat [] := by
  obtain ⟨h0, hl, rfl⟩ := appendAt_ok_elim h
  rw [getD_set_self _ _ _ _ hl]
  simp

/-! ### The tuple order and the sorted-list heap model -/

theorem tripleLe_total (a b : Int × Int × Int) : tripleLe a b ∨ tripleLe b a := by
  obtain ⟨a1, a2, a3⟩ := a
  obtain ⟨b1, b2, b3⟩ := b
  unfold tripleLe
  simp only
  omega

theorem tripleLe_trans {a b c : Int × Int × Int} (h1 : tripleLe a b)
    (h2 : tripleLe b c) : tripleLe a c := by
  obtain ⟨a1, a2, a3⟩ := a
  obtain ⟨b1, b2, b3⟩ := b
  obtain ⟨c1, c2, c3⟩ := c
  unfold tripleLe at h1 h2 ⊢
  simp only at h1 h2 ⊢
  omega

theorem tripleLe_of_not {a b : Int × Int × Int} (h : ¬ tripleLe a b) :
    tripleLe b a := (tripleLe_total a b).resolve_left h

theorem mem_pqPush {e x : Int × Int × Int} {pq : List (Int × Int × Int)} :
    x ∈ pqPush e pq ↔ x = e ∨ x ∈ pq := by
  induction pq with
  | nil => simp [pqPush]
  | cons y ys ih =>
    unfold pqPush
    split
    · simp
    · simp only [List.mem_cons, ih]
      tauto

theorem length_pqPush (e : Int × Int × Int) (pq : List (Int × Int × Int)) :
    (pqPush e pq).length = pq.length + 1 := by
  induction pq with
  | nil => simp [pqPush]
  | cons y ys ih =>
    unfold pqPush
    split
    · simp
    · simp [ih]

theorem pairwise_pqPush (e : Int × Int × Int) {pq : List (Int × Int × Int)}
    (h : List.Pairwise tripleLe pq) : List.Pairwise tripleLe (pqPush e pq) := by
  induction pq with
  | nil => simp [pqPush]
  | cons y ys ih =>
    rw [List.pairwise_cons] at h
    unfold pqPush
    split
    · rename_i hle
      rw [List.pairwise_cons]
      constructor
      · intro x hx
        rcases List.mem_cons.mp hx with rfl | hx
        · exact hle
        · exact tripleLe_trans hle (h.1 x hx)
      · exact List.Pairwise.cons h.1 h.2
    · rename_i hgt
      rw [List.pairwise_cons]
      constructor
      · intro x hx
        rcases mem_pqPush.mp hx with rfl | hx
        · exact tripleLe_of_not hgt
        · exact h.1 x hx
      · exact ih h.2

/-! ### Lemmas about `pushAll` -/

theorem pushAll_ok_mem {vis : List Bool} {t : Int} {l : List (Int × Int)}
    {pq pq' : List (Int × Int × Int)} (h : pushAll vis t l pq = .ok pq') :
    ∀ x ∈ pq', x ∈ pq ∨ ∃ p ∈ l, x = (p.2, p.1, t) ∧ 0 ≤ p.1 ∧
      p.1.toNat < vis.length ∧ vis.getD p.1.toNat false = false := by
  induction l generalizing pq with
  | nil =>
    unfold pushAll at h
    cases h
    intro x hx
    exact Or.inl hx
  | cons p rest ih =>
    unfold pushAll at h
    cases hg : listGetE vis p.1 with
    | error e => rw [hg] at h; cases h
    | ok b =>
      rw [hg] at h
      obtain ⟨h0, hl, hD⟩ := listGetE_ok_getD hg
      cases b with
      | true =>
        intro x hx
        rcases ih h x hx with hx' | ⟨q, hq, he⟩
        · exact Or.inl hx'
        · exact Or.inr ⟨q, List.mem_cons_of_mem _ hq, he⟩
      | false =>
        intro x hx
        rcases ih h x hx with hx' | ⟨q, hq, he⟩
        · rcases mem_pqPush.mp hx' with rfl | hx''
          · exact Or.inr ⟨p, List.mem_cons_self _ _, rfl, h0, hl, hD⟩
          · exact Or.inl hx''
        · exact Or.inr ⟨q, List.mem_cons_of_mem _ hq, he⟩

theorem pushAll_subset {vis : List Bool} {t : Int} {l : List (Int × Int)}
    {pq pq' : List (Int × Int × Int)} (h : pushAll vis t l pq = .ok pq') :
    ∀ x ∈ pq, x ∈ pq' := by
  induction l generalizing pq with
  | nil =>
    unfold pushAll at h
    cases h
    exact fun x hx => hx
  | cons p rest ih =>
    unfold pushAll at h
    cases hg : listGetE vis p.1 with
    | error e => rw [hg] at h; cases h
    | ok b =>
      rw [hg] at h
      cases b with
      | true => exact ih h
      | false =>
        intro x hx
        exact ih h x (mem_pqPush.mpr (Or.inr hx))

theorem pushAll_frontier {vis : List Bool} {t : Int} {l : List (Int × Int)}
    {pq pq' : List (Int × Int × Int)} (h : pushAll vis t l pq = .ok pq') :
    ∀ p ∈ l, vis.getD p.1.toNat false = true ∨ (p.2, p.1, t) ∈ pq' := by
  induction l generalizing pq with
  | nil => intro p hp; simp at hp
  | cons q rest ih =>
    unfold pushAll at h
    cases hg : listGetE vis q.1 with
    | error e => rw [hg] at h; cases h
    | ok b =>
      rw [hg] at h
      obtain ⟨h0, hl, hD⟩ := listGetE_ok_getD hg
      intro p hp
      rcases List.mem_cons.mp hp with rfl | hp'
      · cases b with
        | true => exact Or.inl hD
        | false =>
          exact Or.inr (pushAll_subset h _ (mem_pqPush.mpr (Or.inl rfl)))
      · cases b with
        | true => exact ih h p hp'
        | false => exact ih h p hp'

theorem pushAll_length {vis : List Bool} {t : Int} {l : List (Int × Int)}
    {pq pq' : List (Int × Int × Int)} (h : pushAll vis t l pq = .ok pq') :
    pq'.length ≤ pq.length + l.length := by
  induction l generalizing pq with
  | nil =>
    unfold pushAll at h
    cases h
    simp
  | cons p rest ih =>
    unfold pushAll at h
    cases hg : listGetE vis p.1 with
    | error e => rw [hg] at h; cases h
    | ok b =>
      rw [hg] at h
      cases b with
      | true =>
        have := ih h
        simp only [List.length_cons]
        omega
      | false =>
        have := ih h
        rw [length_pqPush] at this
        simp only [List.length_cons]
        omega

theorem pushAll_pairwise {vis : List Bool} {t : Int} {l : List (Int × Int)}
    {pq pq' : List (Int × Int × Int)} (h : pushAll vis t l pq = .ok pq')
    (hs : List.Pairwise tripleLe pq) : List.Pairwise tripleLe pq' := by
  induction l generalizing pq with
  | nil =>
    unfold pushAll at h
    cases h
    exact hs
  | cons p rest ih =>
    unfold pushAll at h
    cases hg : listGetE vis p.1 with
    | error e => rw [hg] at h; cases h
    | ok b =>
      rw [hg] at h
      cases b with
      | true => exact ih h hs
      | false => exact ih h (pairwise_pqPush _ hs)

theorem pushAll_total {vis : List Bool} {t : Int} {l : List (Int × Int)}
    (pq : List (Int × Int × Int))
    (h : ∀ p ∈ l, 0 ≤ p.1 ∧ p.1.toNat < vis.length) :
    ∃ pq', pushAll vis t l pq = .ok pq' := by
  induction l generalizing pq with
  | nil => exact ⟨pq, rfl⟩
  | cons p rest ih =>
    obtain ⟨h0, hl⟩ := h p (List.mem_cons_self _ _)
    obtain ⟨b, hb⟩ := listGetE_total vis p.1 h0 hl
    have hrest : ∀ q ∈ rest, 0 ≤ q.1 ∧ q.1.toNat < vis.length :=
      fun q hq => h q (List.mem_cons_of_mem _ hq)
    unfold pushAll
    rw [hb]
    cases b with
    | true => exact ih pq hrest
    | false => exact ih _ hrest

/-! ### Lemmas about the termination potential -/

theorem potential_le_totalEntries (vis : List Bool)
    (adj : List (List (Int × Int))) : potential vis adj ≤ totalEntries adj := by
  induction vis generalizing adj with
  | nil => simp [potential]
  | cons b bs ih =>
    cases adj with
    | nil => simp [potential]
    | cons a as =>
      simp only [potential, totalEntries_cons]
      have := ih as
      split <;> omega

theorem potential_set_true (vis : List Bool) (adj : List (List (Int × Int)))
    (i : Nat) (hv : i < vis.length) (hf : vis.getD i false = false)
    (ha : i < adj.length) :
    potential (vis.set i true) adj + (adj.getD i []).length = potential vis adj := by
  induction vis generalizing adj i with
  | nil => simp at hv
  | cons b bs ih =>
    cases adj with
    | nil => simp at ha
    | cons a as =>
      cases i with
      | zero =>
        simp only [List.getD_cons_zero] at hf
        subst hf
        simp [List.set, potential]
        omega
      | succ j =>
        simp only [List.getD_cons_succ] at hf ⊢
        simp only [List.set, potential]
        have := ih as j (by simpa using hv) hf (by simpa using ha)
        omega

/-! ### Characterizing one step of Prim's loop -/

theorem selectEdge_ok_elim {s : MSTState} {w t f : Int}
    {mst1 : List (List (Int × Int))} {cost1 : Int} {trace1 : List String}
    (h : selectEdge s w t f = .ok (mst1, cost1, trace1)) :
    (f = -1 ∧ mst1 = s.mst_adjacency_list ∧ cost1 = s.total_cost ∧
      trace1 = s.trace) ∨
    (f ≠ -1 ∧ ∃ m1, appendAt s.mst_adjacency_list f (t, w) = .ok m1 ∧
      appendAt m1 t (f, w) = .ok mst1 ∧ cost1 = s.total_cost + w ∧
      trace1 = s.trace ++ [edgeSelectedLine t f w]) := by
  unfold selectEdge at h
  split at h
  · rename_i hf
    cases h
    exact Or.inl ⟨hf, rfl, rfl, rfl⟩
  · rename_i hf
    split at h
    · cases h
    · rename_i m1 h1
      split at h
      · cases h
      · rename_i m2 h2
        cases h
        exact Or.inr ⟨hf, m1, h1, h2, rfl, rfl⟩

theorem selectEdge_sentinel (s : MSTState) (w t : Int) :
    selectEdge s w t (-1) = .ok (s.mst_adjacency_list, s.total_cost, s.trace) := by
  unfold selectEdge
  rw [if_pos rfl]

theorem listGetE_error {α : Type} {xs : List α} {i : Int} {e : RunError}
    (h : listGetE xs i = .error e) : e = .indexError := by
  unfold listGetE at h
  split at h
  · cases h
  · cases h; rfl

theorem appendAt_error {l : List (List (Int × Int))} {i : Int} {x : Int × Int}
    {e : RunError} (h : appendAt l i x = .error e) : e = .indexError := by
  unfold appendAt at h
  split at h
  · cases h
  · cases h; rfl

theorem selectEdge_error {s : MSTState} {w t f : Int} {e : RunError}
    (h : selectEdge s w t f = .error e) : e = .indexError := by
  unfold selectEdge at h
  split at h
  · cases h
  · split at h
    · rename_i e1 h1
      cases h
      exact appendAt_error h1
    · split at h
      · rename_i e2 h2
        cases h
        exact appendAt_error h2
      · cases h

theorem pushAll_error {vis : List Bool} {t : Int} {l : List (Int × Int)}
    {pq : List (Int × Int × Int)} {e : RunError}
    (h : pushAll vis t l pq = .error e) : e = .indexError := by
  induction l generalizing pq with
  | nil => unfold pushAll at h; cases h
  | cons p rest ih =>
    unfold pushAll at h
    cases hg : listGetE vis p.1 with
    | error e1 =>
      rw [hg] at h
      cases h
      exact listGetE_error hg
    | ok b =>
      rw [hg] at h
      cases b with
      | true => exact ih h
      | false => exact ih h

theorem visitVertex_error {adj : List (List (Int × Int))} {s : MSTState}
    {rest : List (Int × Int × Int)} {w t f : Int} {e : RunError}
    (h : visitVertex adj s rest w t f = .error e) : e = .indexError := by
  unfold visitVertex at h
  split at h
  · rename_i e1 h1
    cases h
    exact selectEdge_error h1
  · split at h
    · rename_i e2 h2
      cases h
      exact listGetE_error h2
    · split at h
      · rename_i e3 h3
        cases h
        exact pushAll_error h3
      · cases h

theorem mstStep_error {adj : List (List (Int × Int))} {s : MSTState}
    {e : RunError} (h : mstStep adj s = .error e) : e = .indexError := by
  unfold mstStep at h
  split at h
  · cases h
    rfl
  · split at h
    · rename_i e1 h1
      cases h
      exact listGetE_error h1
    · cases h
    · exact visitVertex_error h

/-- Full elimination for a successful loop iteration: either the popped entry
is stale and discarded, or its vertex is newly visited. -/
theorem mstStep_ok_elim {adj : List (List (Int × Int))} {s s' : MSTState}
    (h : mstStep adj s = .ok s') :
    ∃ w t f rest, s.priority_queue = (w, t, f) :: rest ∧ 0 ≤ t ∧
      t.toNat < s.visited.length ∧
      ((s.visited.getD t.toNat false = true ∧
          s' = { s with priority_queue := rest }) ∨
       (s.visited.getD t.toNat false = false ∧
        ∃ mst1 cost1 trace1 slot pq1,
          selectEdge s w t f = .ok (mst1, cost1, trace1) ∧
          listGetE adj t = .ok slot ∧
          pushAll (s.visited.set t.toNat true) t slot rest = .ok pq1 ∧
          s' = ⟨s.visited.set t.toNat true, pq1, mst1, cost1, trace1⟩)) := by
  unfold mstStep at h
  split at h
  · cases h
  · rename_i p rest hpq
    obtain ⟨w, t, f⟩ := p
    split at h
    · cases h
    · rename_i hg
      obtain ⟨h0, hl, hD⟩ := listGetE_ok_getD hg
      cases h
      exact ⟨w, t, f, rest, hpq, h0, hl, Or.inl ⟨hD, rfl⟩⟩
    · rename_i hg
      obtain ⟨h0, hl, hD⟩ := listGetE_ok_getD hg
      unfold visitVertex at h
      split at h
      · cases h
      · rename_i etc hse
        split at h
        · cases h
        · rename_i slot hga
          split at h
          · cases h
          · rename_i pq1 hp
            cases h
            exact ⟨w, t, f, rest, hpq, h0, hl,
              Or.inr ⟨hD, etc.1, etc.2.1, etc.2.2, slot, pq1, hse, hga, hp, rfl⟩⟩

/-- Unfolding of a loop iteration once the queue is known to be nonempty. -/
theorem mstStep_cons (adj : List (List (Int × Int))) (s : MSTState)
    (w t f : Int) (rest : List (Int × Int × Int))
    (hpq : s.priority_queue = (w, t, f) :: rest) :
    mstStep adj s =
      match listGetE s.visited t with
      | .error err => .error err
      | .ok true => .ok { s with priority_queue := rest }
      | .ok false => visitVertex adj s rest w t f := by
  unfold mstStep
  rw [hpq]

/-- Unfolding of `visitVertex` once the edge-recording part has succeeded. -/
theorem visitVertex_eq (adj : List (List (Int × Int))) (s : MSTState)
    (rest : List (Int × Int × Int)) (w t f : Int)
    (mst1 : List (List (Int × Int))) (cost1 : Int) (trace1 : List String)
    (hse : selectEdge s w t f = .ok (mst1, cost1, trace1)) :
    visitVertex adj s rest w t f =
      match listGetE adj t with
      | .error e => .error e
      | .ok slot =>
        match pushAll (s.visited.set t.toNat true) t slot rest with
        | .error e => .error e
        | .ok pq1 => .ok ⟨s.visited.set t.toNat true, pq1, mst1, cost1, trace1⟩ := by
  unfold visitVertex
  rw [hse]

/-- Introduction form of the visit case of a loop iteration. -/
theorem mstStep_visit_intro {adj : List (List (Int × Int))} {s : MSTState}
    {w t f : Int} {rest : List (Int × Int × Int)}
    (hpq : s.priority_queue = (w, t, f) :: rest)
    (hg : listGetE s.visited t = .ok false)
    {mst1 : List (List (Int × Int))} {cost1 : Int} {trace1 : List String}
    (hse : selectEdge s w t f = .ok (mst1, cost1, trace1))
    {slot : List (Int × Int)} (hga : listGetE adj t = .ok slot)
    {pq1 : List (Int × Int × Int)}
    (hp : pushAll (s.visited.set t.toNat true) t slot rest = .ok pq1) :
    mstStep adj s = .ok ⟨s.visited.set t.toNat true, pq1, mst1, cost1, trace1⟩ := by
  rw [mstStep_cons adj s w t f rest hpq, hg]
  show visitVertex adj s rest w t f = _
  rw [visitVertex_eq adj s rest w t f mst1 cost1 trace1 hse, hga]
  show (match pushAll (s.visited.set t.toNat true) t slot rest with
        | Except.error e => (Except.error e : Except RunError MSTState)
        | Except.ok pq1 =>
            Except.ok (⟨s.visited.set t.toNat true, pq1, mst1, cost1, trace1⟩ : MSTState)) = _
  rw [hp]

/-- Introduction form of the lazy-deletion discard case of a loop iteration. -/
theorem mstStep_discard_intro {adj : List (List (Int × Int))} {s : MSTState}
    {w t f : Int} {rest : List (Int × Int × Int)}
    (hpq : s.priority_queue = (w, t, f) :: rest)
    (hg : listGetE s.visited t = .ok true) :
    mstStep adj s = .ok { s with priority_queue := rest } := by
  rw [mstStep_cons adj s w t f rest hpq, hg]

/-! ### The measure decreases, hence the fuel bound suffices -/

theorem mstStep_measure {adj : List (List (Int × Int))} {s s' : MSTState}
    (h : mstStep adj s = .ok s') :
    stateMeasure adj s' < stateMeasure adj s := by
  obtain ⟨w, t, f, rest, hpq, h0, hl, hcase⟩ := mstStep_ok_elim h
  rcases hcase with ⟨hvis, rfl⟩ | ⟨hvis, mst1, cost1, trace1, slot, pq1, hse, hga, hp, rfl⟩
  · unfold stateMeasure
    simp only [hpq]
    simp [List.length_cons]
  · obtain ⟨-, hla, hslot⟩ := listGetE_ok_elim hga
    have hgetD : adj.getD t.toNat [] = slot := by
      rw [getD_eq_get _ _ _ hla, hslot]
    have hpot := potential_set_true s.visited adj t.toNat hl hvis hla
    rw [hgetD] at hpot
    have hlen := pushAll_length hp
    unfold stateMeasure
    simp only [hpq, List.length_cons]
    omega

theorem mstLoop_zero (n : Int) (adj : List (List (Int × Int))) (s : MSTState) :
    mstLoop n adj 0 s = .error .outOfFuel := rfl

theorem mstLoop_succ (n : Int) (adj : List (List (Int × Int))) (fuel : Nat)
    (s : MSTState) :
    mstLoop n adj (fuel + 1) s =
      if loopCond n s then
        match mstStep adj s with
        | .error e => .error e
        | .ok s1 => mstLoop n adj fuel s1
      else .ok s := rfl

/-- Fuel adequacy: with fuel above the measure, the loop never runs out of
fuel and the result does not depend on the exact fuel. -/
theorem mstLoop_adequate (n : Int) (adj : List (List (Int × Int))) :
    ∀ fuel s, stateMeasure adj s < fuel →
      mstLoop n adj fuel s ≠ .error .outOfFuel ∧
      ∀ k, mstLoop n adj (fuel + k) s = mstLoop n adj fuel s := by
  intro fuel
  induction fuel with
  | zero => intro s hs; omega
  | succ f ih =>
    intro s hs
    by_cases hcond : loopCond n s
    · cases hstep : mstStep adj s with
      | error e =>
        constructor
        · rw [mstLoop_succ, if_pos hcond, hstep]
          intro hc
          cases hc
          cases mstStep_error hstep
        · intro k
          rw [show f + 1 + k = (f + k) + 1 from by omega]
          rw [mstLoop_succ, if_pos hcond, hstep, mstLoop_succ, if_pos hcond, hstep]
      | ok s1 =>
        have hm : stateMeasure adj s1 < f :=
          Nat.lt_of_lt_of_le (mstStep_measure hstep) (by omega)
        obtain ⟨ih1, ih2⟩ := ih s1 hm
        constructor
        · rw [mstLoop_succ, if_pos hcond, hstep]
          exact ih1
        · intro k
          rw [show f + 1 + k = (f + k) + 1 from by omega]
          rw [mstLoop_succ, if_pos hcond, hstep, mstLoop_succ, if_pos hcond, hstep]
          have := ih2 k
          exact this
    · constructor
      · rw [mstLoop_succ, if_neg hcond]
        intro hc
        cases hc
      · intro k
        rw [show f + 1 + k = (f + k) + 1 from by omega]
        rw [mstLoop_succ, if_neg hcond, mstLoop_succ, if_neg hcond]

/-- A successful loop run ends in a state where the guard fails. -/
theorem mstLoop_ok_not_cond {n : Int} {adj : List (List (Int × Int))} :
    ∀ {fuel : Nat} {s t : MSTState}, mstLoop n adj fuel s = .ok t →
      ¬ loopCond n t := by
  intro fuel
  induction fuel with
  | zero => intro s t h; cases h
  | succ f ih =>
    intro s t h
    rw [mstLoop_succ] at h
    by_cases hcond : loopCond n s
    · rw [if_pos hcond] at h
      cases hstep : mstStep adj s with
      | error e => rw [hstep] at h; cases h
      | ok s1 =>
        rw [hstep] at h
        exact ih h
    · rw [if_neg hcond] at h
      cases h
      exact hcond

/-- A predicate preserved by every successful step is carried from the start
of a successful loop run to its final state. -/
theorem mstLoop_preserves {n : Int} {adj : List (List (Int × Int))}
    (P : MSTState → Prop)
    (hstep : ∀ s s', mstStep adj s = .ok s' → P s → P s') :
    ∀ {fuel : Nat} {s t : MSTState}, mstLoop n adj fuel s = .ok t → P s → P t := by
  intro fuel
  induction fuel with
  | zero => intro s t h; cases h
  | succ f ih =>
    intro s t h hP
    rw [mstLoop_succ] at h
    by_cases hcond : loopCond n s
    · rw [if_pos hcond] at h
      cases hstep' : mstStep adj s with
      | error e => rw [hstep'] at h; cases h
      | ok s1 =>
        rw [hstep'] at h
        exact ih h (hstep s s1 hstep' hP)
    · rw [if_neg hcond] at h
      cases h
      exact hP

/-- An invariant that guarantees every guarded step succeeds yields a
successful run ending in an invariant state where the guard fails. -/
theorem mstLoop_run {n : Int} {adj : List (List (Int × Int))}
    (P : MSTState → Prop)
    (hstep : ∀ s, P s → loopCond n s → ∃ s', mstStep adj s = .ok s' ∧ P s') :
    ∀ fuel s, P s → stateMeasure adj s < fuel →
      ∃ t, mstLoop n adj fuel s = .ok t ∧ P t ∧ ¬ loopCond n t := by
  intro fuel
  induction fuel with
  | zero => intro s hP hm; omega
  | succ f ih =>
    intro s hP hm
    by_cases hcond : loopCond n s
    · obtain ⟨s1, hstep1, hP1⟩ := hstep s hP hcond
      have hm1 : stateMeasure adj s1 < f :=
        Nat.lt_of_lt_of_le (mstStep_measure hstep1) (by omega)
      obtain ⟨t, ht, hPt, hct⟩ := ih s1 hP1 hm1
      exact ⟨t, by rw [mstLoop_succ, if_pos hcond, hstep1]; exact ht, hPt, hct⟩
    · exact ⟨s, by rw [mstLoop_succ, if_neg hcond], hP, hcond⟩

/-! ### The unconditional loop invariant -/

theorem getD_replicate_nil (k i : Nat) :
    (List.replicate k ([] : List (Int × Int))).getD i [] = [] := by
  by_cases h : i < k
  · rw [getD_replicate_lt _ _ _ _ h]
  · exact getD_of_le _ _ _ (by simp; omega)

/-- Slotwise description of recording one MST edge in both directions. -/
theorem appendPair_getD {mst m1 m2 : List (List (Int × Int))} {f t w : Int}
    (h1 : appendAt mst f (t, w) = .ok m1) (h2 : appendAt m1 t (f, w) = .ok m2)
    (hne : f.toNat ≠ t.toNat) (j : Nat) :
    m2.getD j [] =
      if j = f.toNat then mst.getD j [] ++ [(t, w)]
      else if j = t.toNat then mst.getD j [] ++ [(f, w)]
      else mst.getD j [] := by
  obtain ⟨hf0, hfl, rfl⟩ := appendAt_ok_elim h1
  obtain ⟨ht0, htl, rfl⟩ := appendAt_ok_elim h2
  rw [List.length_set] at htl
  have hm1t : (mst.set f.toNat (mst.getD f.toNat [] ++ [(t, w)])).getD t.toNat [] =
      mst.getD t.toNat [] := getD_set_ne _ _ _ _ _ hne
  by_cases hjf : j = f.toNat
  · subst hjf
    rw [getD_set_ne _ _ _ _ _ (fun hc => hne hc.symm),
      getD_set_self _ _ _ _ hfl, if_pos rfl]
  · by_cases hjt : j = t.toNat
    · subst hjt
      rw [getD_set_self _ _ _ _ (by simpa using htl), hm1t, if_neg hjf, if_pos rfl]
    · rw [getD_set_ne _ _ _ _ _ (fun hc => hjt hc.symm),
        getD_set_ne _ _ _ _ _ (fun hc => hjf hc.symm), if_neg hjf, if_neg hjt]

/-- `BaseInv` only constrains the non-trace fields. -/
theorem baseInv_trace {s : MSTState} (h : BaseInv s) (tr : List String) :
    BaseInv { s with trace := tr } :=
  ⟨h.lenEq, h.qpOK, h.symm, h.noSelf, h.emptyUnvisited, h.costEq⟩

theorem getD_set_true_mono {vis : List Bool} {i j : Nat}
    (h : vis.getD j false = true) : (vis.set i true).getD j false = true := by
  by_cases hij : i = j
  · subst hij
    by_cases hl : i < vis.length
    · rw [getD_set_self _ _ _ _ hl]
    · rw [set_of_le _ _ _ (by omega)]
      exact h
  · rw [getD_set_ne _ _ _ _ _ hij]
    exact h

/-- One successful step preserves the unconditional invariant. -/
theorem mstStep_baseInv {adj : List (List (Int × Int))} {s s' : MSTState}
    (h : mstStep adj s = .ok s') (hB : BaseInv s) : BaseInv s' := by
  obtain ⟨w, t, f, rest, hpq, h0, hl, hcase⟩ := mstStep_ok_elim h
  rcases hcase with ⟨hvis, rfl⟩ | ⟨hvis, mst1, cost1, trace1, slot, pq1, hse, hga, hp, rfl⟩
  · exact ⟨hB.lenEq, fun e he => hB.qpOK e (by rw [hpq]; exact List.mem_cons_of_mem _ he),
      hB.symm, hB.noSelf, hB.emptyUnvisited, hB.costEq⟩
  · have hqp1 : ∀ e ∈ pq1, e.2.2 = -1 ∨
        (0 ≤ e.2.2 ∧ e.2.2.toNat < (s.visited.set t.toNat true).length ∧
          (s.visited.set t.toNat true).getD e.2.2.toNat false = true) := by
      intro e he
      rcases pushAll_ok_mem hp e he with he' | ⟨p, hpmem, rfl, hp0, hpl, hpv⟩
      · rcases hB.qpOK e (by rw [hpq]; exact List.mem_cons_of_mem _ he') with h1 | ⟨h1, h2, h3⟩
        · exact Or.inl h1
        · exact Or.inr ⟨h1, by simpa using h2, getD_set_true_mono h3⟩
      · refine Or.inr ⟨h0, by simpa using hl, ?_⟩
        rw [getD_set_self _ _ _ _ hl]
    rcases selectEdge_ok_elim hse with ⟨hf, rfl, rfl, rfl⟩ |
        ⟨hf, m1, ha1, ha2, rfl, rfl⟩
    · refine ⟨by simpa using hB.lenEq, hqp1, hB.symm, hB.noSelf, ?_, hB.costEq⟩
      intro i hi
      have hit : i ≠ t.toNat := by
        intro hc
        subst hc
        rw [getD_set_self _ _ _ _ hl] at hi
        cases hi
      rw [getD_set_ne _ _ _ _ _ (fun hc => hit hc.symm)] at hi
      exact hB.emptyUnvisited i hi
    · -- a real edge (f, t, w) is recorded in both directions
      have hfOK : 0 ≤ f ∧ f.toNat < s.visited.length ∧
          s.visited.getD f.toNat false = true := by
        rcases hB.qpOK (w, t, f) (by rw [hpq]; exact List.mem_cons_self _ _) with h1 | h1
        · exact absurd h1 hf
        · exact h1
      have hfnet : f.toNat ≠ t.toNat := by
        intro hc
        rw [hc, hvis] at hfOK
        cases hfOK.2.2
      have hslot := appendPair_getD ha1 ha2 hfnet
      have hflm : f.toNat < s.mst_adjacency_list.length := hB.lenEq ▸ hfOK.2.1
      have htlm : t.toNat < s.mst_adjacency_list.length := hB.lenEq ▸ hl
      have hfInt : ((f.toNat : Nat) : Int) = f := Int.toNat_of_nonneg hfOK.1
      have htInt : ((t.toNat : Nat) : Int) = t := Int.toNat_of_nonneg h0
      have hlen2 : mst1.length = s.mst_adjacency_list.length := by
        rw [length_appendAt ha2, length_appendAt ha1]
      refine ⟨?_, hqp1, ?_, ?_, ?_, ?_⟩
      · rw [List.length_set, hlen2]
        exact hB.lenEq
      · -- symmetry
        intro i v w' hm
        rw [hslot i] at hm
        by_cases hif : i = f.toNat
        · subst hif
          rw [if_pos rfl] at hm
          rcases List.mem_append.mp hm with hm | hm
          · obtain ⟨hv0, hmir⟩ := hB.symm _ v w' hm
            refine ⟨hv0, ?_⟩
            rw [hslot v.toNat]
            split
            · exact List.mem_append.mpr (Or.inl hmir)
            · split
              · exact List.mem_append.mpr (Or.inl hmir)
              · exact hmir
          · simp only [List.mem_singleton, Prod.mk.injEq] at hm
            obtain ⟨rfl, rfl⟩ := hm
            refine ⟨h0, ?_⟩
            rw [hslot v.toNat, if_neg (fun hc => hfnet hc.symm), if_pos rfl]
            refine List.mem_append.mpr (Or.inr ?_)
            simp [hfInt]
        · by_cases hit : i = t.toNat
          · subst hit
            rw [if_neg hif, if_pos rfl] at hm
            rcases List.mem_append.mp hm with hm | hm
            · obtain ⟨hv0, hmir⟩ := hB.symm _ v w' hm
              refine ⟨hv0, ?_⟩
              rw [hslot v.toNat]
              split
              · exact List.mem_append.mpr (Or.inl hmir)
              · split
                · exact List.mem_append.mpr (Or.inl hmir)
                · exact hmir
            · simp only [List.mem_singleton, Prod.mk.injEq] at hm
              obtain ⟨rfl, rfl⟩ := hm
              refine ⟨hfOK.1, ?_⟩
              rw [hslot v.toNat, if_pos rfl]
              refine List.mem_append.mpr (Or.inr ?_)
              simp [htInt]
          · rw [if_neg hif, if_neg hit] at hm
            obtain ⟨hv0, hmir⟩ := hB.symm _ v w' hm
            refine ⟨hv0, ?_⟩
            rw [hslot v.toNat]
            split
            · exact List.mem_append.mpr (Or.inl hmir)
            · split
              · exact List.mem_append.mpr (Or.inl hmir)
              · exact hmir
      · -- no self entries
        intro i v w' hm
        rw [hslot i] at hm
        by_cases hif : i = f.toNat
        · subst hif
          rw [if_pos rfl] at hm
          rcases List.mem_append.mp hm with hm | hm
          · exact hB.noSelf _ v w' hm
          · simp only [List.mem_singleton, Prod.mk.injEq] at hm
            obtain ⟨rfl, rfl⟩ := hm
            intro hc
            rw [← hfInt] at hc
            exact hfnet (by omega)
        · by_cases hit : i = t.toNat
          · subst hit
            rw [if_neg hif, if_pos rfl] at hm
            rcases List.mem_append.mp hm with hm | hm
            · exact hB.noSelf _ v w' hm
            · simp only [List.mem_singleton, Prod.mk.injEq] at hm
              obtain ⟨rfl, rfl⟩ := hm
              intro hc
              rw [← htInt] at hc
              exact hfnet (by omega)
          · rw [if_neg hif, if_neg hit] at hm
            exact hB.noSelf _ v w' hm
      · -- unvisited slots stay empty
        intro i hi
        have hit : i ≠ t.toNat := by
          intro hc
          subst hc
          rw [getD_set_self _ _ _ _ hl] at hi
          cases hi
        rw [getD_set_ne _ _ _ _ _ (fun hc => hit hc.symm)] at hi
        have hif : i ≠ f.toNat := by
          intro hc
          subst hc
          rw [hfOK.2.2] at hi
          cases hi
        rw [hslot i, if_neg hif, if_neg hit]
        exact hB.emptyUnvisited i hi
      · -- cost bookkeeping
        obtain ⟨-, hfl', hm1⟩ := appendAt_ok_elim ha1
        obtain ⟨-, htl', hm2⟩ := appendAt_ok_elim ha2
        subst hm1
        subst hm2
        rw [weightSum_set_append _ _ _ (by simpa using htl'),
          weightSum_set_append _ _ _ hfl']
        have := hB.costEq
        simp only
        omega

/-- The initial state satisfies the unconditional invariant. -/
theorem baseInv_init (n : Int) : BaseInv (initState n) := by
  refine ⟨by simp [initState], ?_, ?_, ?_, ?_, ?_⟩
  · intro e he
    simp only [initState, List.mem_singleton] at he
    subst he
    exact Or.inl rfl
  · intro i v w hm
    rw [show (initState n).mst_adjacency_list = List.replicate n.toNat [] from rfl,
      getD_replicate_nil] at hm
    cases hm
  · intro i v w hm
    rw [show (initState n).mst_adjacency_list = List.replicate n.toNat [] from rfl,
      getD_replicate_nil] at hm
    cases hm
  · intro i hi
    rw [show (initState n).mst_adjacency_list = List.replicate n.toNat [] from rfl,
      getD_replicate_nil]
  · rw [show (initState n).mst_adjacency_list = List.replicate n.toNat [] from rfl,
      weightSum_replicate]
    rfl

/-- Structure of a successful `compute_mst` run: the `num_vertices == 0`
branch, or a completed loop run whose trace is extended by the total-cost line
and the MST listing. -/
theorem compute_mst_ok_elim {n : Int} {adj : List (List (Int × Int))}
    {t : MSTState} (h : compute_mst n adj = .ok t) :
    (n = 0 ∧ t = ⟨[], [], [], 0, ["This is an empty graph - No MST"]⟩) ∨
    (n ≠ 0 ∧ ∃ u, mstLoop n adj (initFuel adj) (initState n) = .ok u ∧
      t = { u with trace := u.trace ++ [totalCostLine u.total_cost] ++
        print_adjacency_list u.mst_adjacency_list "MST Graph - Adjacency List" }) := by
  unfold compute_mst at h
  split at h
  · rename_i hz
    cases h
    exact Or.inl ⟨hz, rfl⟩
  · rename_i hz
    split at h
    · cases h
    · rename_i u hu
      cases h
      exact Or.inr ⟨hz, u, hu, rfl⟩

/-- Every successful `compute_mst` result satisfies the unconditional
invariant. -/
theorem compute_mst_ok_baseInv {n : Int} {adj : List (List (Int × Int))}
    {t : MSTState} (h : compute_mst n adj = .ok t) : BaseInv t := by
  rcases compute_mst_ok_elim h with ⟨hz, rfl⟩ | ⟨hz, u, hu, rfl⟩
  · refine ⟨rfl, ?_, ?_, ?_, ?_, rfl⟩
    · intro e he
      cases he
    · intro i v w hm
      simp [List.getD] at hm
    · intro i v w hm
      simp [List.getD] at hm
    · intro i hi
      simp [List.getD]
  · exact baseInv_trace
      (mstLoop_preserves BaseInv (fun s s' hs hB => mstStep_baseInv hs hB) hu
        (baseInv_init n)) _

/-! ### Lemmas about the graph builder -/

theorem length_appendAtD (l : List (List (Int × Int))) (i : Int) (e : Int × Int) :
    (appendAtD l i e).length = l.length := by
  simp [appendAtD]

theorem mem_appendAtD_elim {l : List (List (Int × Int))} {i : Int} {x : Int × Int}
    {j : Nat} {y : Int × Int} (h : y ∈ (appendAtD l i x).getD j []) :
    y ∈ l.getD j [] ∨ (y = x ∧ j = i.toNat) := by
  unfold appendAtD at h
  by_cases hj : i.toNat = j
  · subst hj
    by_cases hl : i.toNat < l.length
    · rw [getD_set_self _ _ _ _ hl] at h
      rcases List.mem_append.mp h with h | h
      · exact Or.inl h
      · simp at h
        exact Or.inr ⟨h, rfl⟩
    · rw [set_of_le _ _ _ (by omega)] at h
      exact Or.inl h
  · rw [getD_set_ne _ _ _ _ _ hj] at h
    exact Or.inl h

theorem mem_appendAtD_mono {l : List (List (Int × Int))} (i : Int) (x : Int × Int)
    {j : Nat} {y : Int × Int} (h : y ∈ l.getD j []) :
    y ∈ (appendAtD l i x).getD j [] := by
  unfold appendAtD
  by_cases hj : i.toNat = j
  · subst hj
    by_cases hl : i.toNat < l.length
    · rw [getD_set_self _ _ _ _ hl]
      exact List.mem_append.mpr (Or.inl h)
    · rw [set_of_le _ _ _ (by omega)]
      exact h
  · rw [getD_set_ne _ _ _ _ _ hj]
    exact h

theorem mem_appendAtD_self {l : List (List (Int × Int))} {i : Int} (x : Int × Int)
    (h : i.toNat < l.length) : x ∈ (appendAtD l i x).getD i.toNat [] := by
  unfold appendAtD
  rw [getD_set_self _ _ _ _ h]
  simp

theorem processEdge_empty (s : BuildState) (f t w : Int) :
    processEdge 0 s (f, t, w) =
      { s with trace := s.trace ++ [emptyGraphEdgeLine f t w] } := by
  simp [processEdge]

theorem processEdge_vortex {n : Int} (s : BuildState) {f t w : Int} (hn : n ≠ 0)
    (h : f < 0 ∨ t < 0 ∨ f ≥ n ∨ t ≥ n) :
    processEdge n s (f, t, w) =
      { s with trace := s.trace ++ [invalidVortexLine f t w] } := by
  simp only [processEdge]
  rw [if_neg hn, if_pos h]

theorem processEdge_weight {n : Int} (s : BuildState) {f t w : Int} (hn : n ≠ 0)
    (hf : ¬(f < 0 ∨ t < 0 ∨ f ≥ n ∨ t ≥ n)) (hw : w ≤ 0) :
    processEdge n s (f, t, w) =
      { s with trace := s.trace ++ [invalidWeightLine f t w] } := by
  simp only [processEdge]
  rw [if_neg hn, if_neg hf, if_pos hw]

theorem processEdge_accept {n : Int} (s : BuildState) {f t w : Int} (hn : n ≠ 0)
    (hf : ¬(f < 0 ∨ t < 0 ∨ f ≥ n ∨ t ≥ n)) (hw : ¬(w ≤ 0)) :
    processEdge n s (f, t, w) =
      ⟨appendAtD (appendAtD s.adjacency_list f (t, w)) t (f, w),
       s.trace ++ [edgeAddedLine f t w, edgeAddedLine t f w]⟩ := by
  simp only [processEdge]
  rw [if_neg hn, if_neg hf, if_neg hw]

theorem processEdge_symm {n : Int} {s : BuildState}
    (hlen : s.adjacency_list.length = n.toNat) (hs : SymmAdj s.adjacency_list)
    (e : Int × Int × Int) :
    (processEdge n s e).adjacency_list.length = n.toNat ∧
      SymmAdj (processEdge n s e).adjacency_list := by
  obtain ⟨f, t, w⟩ := e
  by_cases hn : n = 0
  · subst hn
    rw [processEdge_empty]
    exact ⟨hlen, hs⟩
  · by_cases hf : f < 0 ∨ t < 0 ∨ f ≥ n ∨ t ≥ n
    · rw [processEdge_vortex s hn hf]
      exact ⟨hlen, hs⟩
    · by_cases hw : w ≤ 0
      · rw [processEdge_weight s hn hf hw]
        exact ⟨hlen, hs⟩
      · rw [processEdge_accept s hn hf hw]
        push_neg at hf
        obtain ⟨hf0, ht0, hfn, htn⟩ := hf
        have hfl : f.toNat < s.adjacency_list.length := by
          rw [hlen]; omega
        have htl : t.toNat < s.adjacency_list.length := by
          rw [hlen]; omega
        have htl1 : t.toNat < (appendAtD s.adjacency_list f (t, w)).length := by
          rw [length_appendAtD]; exact htl
        constructor
        · simp only [length_appendAtD]
          exact hlen
        · intro i v w' hm
          rcases mem_appendAtD_elim hm with hm1 | ⟨hvw, rfl⟩
          · rcases mem_appendAtD_elim hm1 with hm2 | ⟨hvw, rfl⟩
            · obtain ⟨hv0, hmir⟩ := hs i v w' hm2
              exact ⟨hv0, mem_appendAtD_mono _ _ (mem_appendAtD_mono _ _ hmir)⟩
            · -- the entry (t, w) freshly put into slot f
              cases hvw
              refine ⟨ht0, ?_⟩
              have : ((f.toNat : Int), w) = (f, w) := by
                rw [Int.toNat_of_nonneg hf0]
              rw [this]
              exact mem_appendAtD_self _ htl1
          · -- the entry (f, w) freshly put into slot t
            cases hvw
            refine ⟨hf0, ?_⟩
            have hmem : (t, w) ∈ (appendAtD s.adjacency_list f (t, w)).getD f.toNat [] :=
              mem_appendAtD_self _ (by rw [hlen]; omega)
            have : ((t.toNat : Int), w) = (t, w) := by
              rw [Int.toNat_of_nonneg ht0]
            rw [this]
            exact mem_appendAtD_mono _ _ hmem

theorem foldl_processEdge_symm (n : Int) (edges : List (Int × Int × Int)) :
    ∀ s : BuildState, s.adjacency_list.length = n.toNat →
      SymmAdj s.adjacency_list →
      (List.foldl (processEdge n) s edges).adjacency_list.length = n.toNat ∧
        SymmAdj (List.foldl (processEdge n) s edges).adjacency_list := by
  induction edges with
  | nil => intro s h1 h2; exact ⟨h1, h2⟩
  | cons e rest ih =>
    intro s h1 h2
    rw [List.foldl_cons]
    obtain ⟨h1', h2'⟩ := processEdge_symm h1 h2 e
    exact ih _ h1' h2'

theorem build_adjacency_list_symm (n : Int) (edges : List (Int × Int × Int)) :
    SymmAdj (build_adjacency_list n edges).adjacency_list := by
  unfold build_adjacency_list
  refine (foldl_processEdge_symm n edges _ (by simp) ?_).2
  intro i v w hm
  rw [getD_replicate_nil] at hm
  cases hm

/-! ### The degenerate runs of `compute_mst` -/

theorem countTrue_nil : countTrue [] = 0 := rfl

theorem compute_mst_neg (n : Int) (adj : List (List (Int × Int))) (hn : n < 0) :
    compute_mst n adj = .ok ⟨[], [(0, 0, -1)], [], 0,
      ["Minimum Spanning Tree", "Total cost of MST: 0",
       "MST Graph - Adjacency List"]⟩ := by
  unfold compute_mst
  rw [if_neg (by omega)]
  have hinit : initState n =
      ⟨[], [(0, 0, -1)], [], 0, ["Minimum Spanning Tree"]⟩ := by
    unfold initState
    rw [show n.toNat = 0 from by omega]
    rfl
  have hcond : ¬ loopCond n
      (⟨[], [(0, 0, -1)], [], 0, ["Minimum Spanning Tree"]⟩ : MSTState) := by
    intro hc
    have := hc.2
    simp only [countTrue_nil] at this
    omega
  rw [hinit, show initFuel adj = (totalEntries adj + 1) + 1 from rfl,
    mstLoop_succ, if_neg hcond]
  rfl

theorem foldl_processEdge_neg (n : Int) (hn : n < 0) :
    ∀ (edges : List (Int × Int × Int)) (tr : List String),
      List.foldl (processEdge n) ⟨[], tr⟩ edges =
        ⟨[], tr ++ edges.map (fun e => invalidVortexLine e.1 e.2.1 e.2.2)⟩ := by
  intro edges
  induction edges with
  | nil => intro tr; simp
  | cons e rest ih =>
    intro tr
    obtain ⟨f, t, w⟩ := e
    rw [List.foldl_cons, processEdge_vortex _ (by omega) (by omega)]
    show List.foldl (processEdge n) ⟨[], tr ++ [invalidVortexLine f t w]⟩ rest = _
    rw [ih (tr ++ [invalidVortexLine f t w])]
    simp

theorem build_adjacency_list_neg (n : Int) (edges : List (Int × Int × Int))
    (hn : n < 0) :
    build_adjacency_list n edges =
      ⟨[], edges.map (fun e => invalidVortexLine e.1 e.2.1 e.2.2)⟩ := by
  unfold build_adjacency_list
  rw [show n.toNat = 0 from by omega]
  exact foldl_processEdge_neg n hn edges []

/-! ### The conditional loop invariant for connected inputs -/

theorem listGetE_of_getD {xs : List Bool} {i : Int} (h0 : 0 ≤ i)
    (hl : i.toNat < xs.length) :
    listGetE xs i = .ok (xs.getD i.toNat false) := by
  rw [listGetE_of_lt h0 hl, getD_eq_get _ _ _ hl]

theorem selectEdge_intro {s : MSTState} {w t f : Int}
    {m1 m2 : List (List (Int × Int))} (hf : f ≠ -1)
    (h1 : appendAt s.mst_adjacency_list f (t, w) = .ok m1)
    (h2 : appendAt m1 t (f, w) = .ok m2) :
    selectEdge s w t f =
      .ok (m2, s.total_cost + w, s.trace ++ [edgeSelectedLine t f w]) := by
  unfold selectEdge
  rw [if_neg hf, h1]
  show (match appendAt m1 t (f, w) with
        | Except.error e =>
            (Except.error e : Except RunError (List (List (Int × Int)) × Int × List String))
        | Except.ok m2 =>
            Except.ok (m2, s.total_cost + w,
              s.trace ++ [edgeSelectedLine t f w])) = _
  rw [h2]

/-- Reachability is monotone under slotwise entry inclusion. -/
theorem reach_mono_entries {a b : List (List (Int × Int))}
    (h : ∀ (u : Nat) (x : Int × Int), x ∈ a.getD u [] → x ∈ b.getD u [])
    {v v' : Int} (hr : Reach a v v') : Reach b v v' := by
  refine Relation.ReflTransGen.mono ?_ hr
  intro x y hxy
  obtain ⟨h0, wgt, hw⟩ := hxy
  exact ⟨h0, wgt, h _ _ hw⟩

/-- Under a well-formed adjacency structure, an iteration whose state satisfies
`LoopInv` succeeds and preserves `LoopInv`. -/
theorem mstStep_loopInv {n : Int} {adj : List (List (Int × Int))}
    (hlen : adj.length = n.toNat) (hWF : WFNbrs n adj) {s : MSTState}
    (hc : loopCond n s) (hI : LoopInv n adj s) :
    ∃ s', mstStep adj s = .ok s' ∧ LoopInv n adj s' := by
  obtain ⟨hpq, hcount⟩ := hc
  cases hq : s.priority_queue with
  | nil => exact absurd hq hpq
  | cons e rest =>
  obtain ⟨w, t, f⟩ := e
  have hmemhead : (w, t, f) ∈ s.priority_queue := by
    rw [hq]; exact List.mem_cons_self _ _
  have hqv := hI.qv (w, t, f) hmemhead
  have ht0 : 0 ≤ t := hqv.1
  have htn : t < n := hqv.2
  have htl : t.toNat < s.visited.length := by rw [hI.vlen]; omega
  by_cases hb : s.visited.getD t.toNat false = true
  · -- lazy deletion: the popped vertex is already visited
    have hg : listGetE s.visited t = .ok true := by
      rw [listGetE_of_getD ht0 htl, hb]
    refine ⟨_, mstStep_discard_intro hq hg, ?_⟩
    refine ⟨hI.vlen, hI.mlen, hI.v0, ?_, ?_, ?_, hI.countEq, hI.reach⟩
    · intro x hx
      exact hI.qv x (by rw [hq]; exact List.mem_cons_of_mem _ hx)
    · intro x hx
      exact hI.qp x (by rw [hq]; exact List.mem_cons_of_mem _ hx)
    · intro u hu hvu p hp
      rcases hI.frontier u hu hvu p hp with hv | ⟨c, q, hcq⟩
      · exact Or.inl hv
      · rw [hq] at hcq
        rcases List.mem_cons.mp hcq with heq | hmem
        · have hp1 : p.1 = t := congrArg (fun x => x.2.1) heq
          refine Or.inl ?_
          rw [hp1]
          exact hb
        · exact Or.inr ⟨c, q, hmem⟩
  · -- the popped vertex is new: visit it
    have hbf : s.visited.getD t.toNat false = false := by
      cases hval : s.visited.getD t.toNat false
      · rfl
      · exact absurd hval hb
    have hg : listGetE s.visited t = .ok false := by
      rw [listGetE_of_getD ht0 htl, hbf]
    have hqp := hI.qp (w, t, f) hmemhead
    have hf0 : 0 ≤ f := hqp.1
    have hfn : f < n := hqp.2.1
    have hfv : s.visited.getD f.toNat false = true := hqp.2.2
    have hfne : f ≠ -1 := by omega
    have hflm : f.toNat < s.mst_adjacency_list.length := by rw [hI.mlen]; omega
    have ha1 := appendAt_of_lt (l := s.mst_adjacency_list) (i := f) (t, w) hf0 hflm
    have htlm1 : t.toNat <
        (s.mst_adjacency_list.set f.toNat
          (s.mst_adjacency_list.getD f.toNat [] ++ [(t, w)])).length := by
      rw [List.length_set, hI.mlen]; omega
    have ha2 := appendAt_of_lt (i := t) (f, w) ht0 htlm1
    have hse := selectEdge_intro hfne ha1 ha2
    have htla : t.toNat < adj.length := by rw [hlen]; omega
    have hga := listGetE_of_lt ht0 htla
    have hslotmem : adj.get ⟨t.toNat, htla⟩ ∈ adj := adj.get_mem _ _
    have hWFslot : ∀ p ∈ adj.get ⟨t.toNat, htla⟩, 0 ≤ p.1 ∧ p.1 < n :=
      fun p hp => hWF _ hslotmem p hp
    obtain ⟨pq1, hp⟩ := @pushAll_total (s.visited.set t.toNat true)
      t (adj.get ⟨t.toNat, htla⟩) rest
      (fun p hpmem => ⟨(hWFslot p hpmem).1, by
        rw [List.length_set, hI.vlen]
        have := (hWFslot p hpmem).2
        omega⟩)
    refine ⟨_, mstStep_visit_intro hq hg hse hga hp, ?_⟩
    have hvlen1 : (s.visited.set t.toNat true).length = n.toNat := by
      rw [List.length_set]; exact hI.vlen
    have hfnet : f.toNat ≠ t.toNat := by
      intro hcontra
      rw [hcontra, hbf] at hfv
      cases hfv
    have hadjslot : adj.getD t.toNat [] = adj.get ⟨t.toNat, htla⟩ :=
      getD_eq_get _ _ _ htla
    -- the two slots of the recorded edge, in closed form
    have hm2 := appendPair_getD ha1 ha2 hfnet
    refine ⟨hvlen1, ?_, getD_set_true_mono hI.v0, ?_, ?_, ?_, ?_, ?_⟩
    · -- length of the MST structure
      rw [List.length_set, List.length_set]
      exact hI.mlen
    · -- queue vertices are in range
      intro x hx
      rcases pushAll_ok_mem hp x hx with hx' | ⟨p, hpmem, rfl, -, -, -⟩
      · exact hI.qv x (by rw [hq]; exact List.mem_cons_of_mem _ hx')
      · exact hWFslot p hpmem
    · -- queue predecessors are visited and in range
      intro x hx
      rcases pushAll_ok_mem hp x hx with hx' | ⟨p, hpmem, rfl, -, -, -⟩
      · obtain ⟨hx1, hx2, hx3⟩ := hI.qp x
          (by rw [hq]; exact List.mem_cons_of_mem _ hx')
        exact ⟨hx1, hx2, getD_set_true_mono hx3⟩
      · refine ⟨ht0, htn, ?_⟩
        rw [getD_set_self _ _ _ _ htl]
    · -- frontier
      intro u hu hvu p hp'
      by_cases hut : u = t.toNat
      · subst hut
        rw [hadjslot] at hp'
        rcases pushAll_frontier hp p hp' with hv | hv
        · exact Or.inl hv
        · exact Or.inr ⟨p.2, t, hv⟩
      · rw [getD_set_ne _ _ _ _ _ (fun hcontra => hut hcontra.symm)] at hvu
        rcases hI.frontier u (by rw [List.length_set] at hu; exact hu) hvu p hp'
          with hv | ⟨c, q, hcq⟩
        · exact Or.inl (getD_set_true_mono hv)
        · rw [hq] at hcq
          rcases List.mem_cons.mp hcq with heq | hmem
          · have hp1 : p.1 = t := congrArg (fun x => x.2.1) heq
            refine Or.inl ?_
            rw [hp1]
            rw [getD_set_self _ _ _ _ htl]
          · exact Or.inr ⟨c, q, pushAll_subset hp _ hmem⟩
    · -- edge counting
      obtain ⟨-, -, he1⟩ := appendAt_ok_elim ha1
      obtain ⟨-, htl2, he2⟩ := appendAt_ok_elim ha2
      cases he1
      rw [totalEntries_set_append _ _ _ (by simpa using htl2),
        totalEntries_set_append _ _ _ hflm,
        countTrue_set_true s.visited t.toNat htl hbf]
      have := hI.countEq
      omega
    · -- every visited vertex is reachable from 0 in the partial MST
      intro v hv0 hvn hvis
      have hmono := fun (u : Nat) (x : Int × Int)
          (hx : x ∈ s.mst_adjacency_list.getD u []) =>
        mem_appendAt_mono ha2 (mem_appendAt_mono ha1 hx)
      by_cases hvt : v.toNat = t.toNat
      · have hveq : v = t := by omega
        subst hveq
        have hreachf : Reach s.mst_adjacency_list 0 f := hI.reach f hf0 hfn hfv
        refine Relation.ReflTransGen.tail (reach_mono_entries hmono hreachf) ?_
        refine ⟨hf0, w, ?_⟩
        rw [hm2 f.toNat, if_pos rfl]
        exact List.mem_append.mpr (Or.inr (by simp))
      · rw [getD_set_ne _ _ _ _ _ (fun hcontra => hvt hcontra.symm)] at hvis
        exact reach_mono_entries hmono (hI.reach v hv0 hvn hvis)

/-- The first loop iteration pops the sentinel and visits vertex `0`,
establishing `LoopInv`, with the measure bounded by the adjacency entries. -/
theorem first_step {n : Int} {adj : List (List (Int × Int))} (hn : 1 ≤ n)
    (hlen : adj.length = n.toNat) (hWF : WFNbrs n adj) :
    ∃ s1, mstStep adj (initState n) = .ok s1 ∧ LoopInv n adj s1 ∧
      stateMeasure adj s1 ≤ totalEntries adj := by
  have htz : (0 : Int).toNat = 0 := rfl
  have hvlen : (initState n).visited = List.replicate n.toNat false := rfl
  have h0l : (0 : Int).toNat < (initState n).visited.length := by
    rw [htz, hvlen, List.length_replicate]
    omega
  have hg : listGetE (initState n).visited 0 = .ok false := by
    rw [listGetE_of_getD (by omega) h0l, htz, hvlen,
      getD_replicate_lt _ _ _ _ (by omega)]
  have hpq0 : (initState n).priority_queue =
      ((0 : Int), (0 : Int), (-1 : Int)) :: [] := rfl
  have hse := selectEdge_sentinel (initState n) 0 0
  have h0a : (0 : Int).toNat < adj.length := by
    rw [htz, hlen]; omega
  have hslotmem : adj.get ⟨(0 : Int).toNat, h0a⟩ ∈ adj := adj.get_mem _ _
  have hWFslot : ∀ p ∈ adj.get ⟨(0 : Int).toNat, h0a⟩, 0 ≤ p.1 ∧ p.1 < n :=
    fun p hp => hWF _ hslotmem p hp
  have hga := @listGetE_of_lt _ adj 0 (by omega) h0a
  obtain ⟨pq1, hp⟩ := @pushAll_total
      ((initState n).visited.set (0 : Int).toNat true) 0
      (adj.get ⟨(0 : Int).toNat, h0a⟩) []
      (fun p hpmem => ⟨(hWFslot p hpmem).1, by
        rw [List.length_set, hvlen, List.length_replicate]
        have h1 := (hWFslot p hpmem).1
        have h2 := (hWFslot p hpmem).2
        omega⟩)
  refine ⟨_, mstStep_visit_intro hpq0 hg hse hga hp, ?_, ?_⟩
  · have hgslot : adj.getD (0 : Int).toNat [] = adj.get ⟨(0 : Int).toNat, h0a⟩ :=
      getD_eq_get _ _ _ h0a
    refine ⟨?_, ?_, ?_, ?_, ?_, ?_, ?_, ?_⟩
    · rw [List.length_set, hvlen, List.length_replicate]
    · show (initState n).mst_adjacency_list.length = n.toNat
      rw [show (initState n).mst_adjacency_list = List.replicate n.toNat [] from rfl,
        List.length_replicate]
    · show ((initState n).visited.set (0 : Int).toNat true).getD 0 false = true
      rw [← htz, getD_set_self _ _ _ _ h0l]
    · intro x hx
      rcases pushAll_ok_mem hp x hx with hx' | ⟨p, hpmem, rfl, -, -, -⟩
      · cases hx'
      · exact hWFslot p hpmem
    · intro x hx
      rcases pushAll_ok_mem hp x hx with hx' | ⟨p, hpmem, rfl, -, -, -⟩
      · cases hx'
      · refine ⟨le_refl 0, by show (0 : Int) < n; omega, ?_⟩
        rw [htz, ← htz, getD_set_self _ _ _ _ h0l]
    · intro u hu hvu p hp'
      by_cases hu0 : u = 0
      · subst hu0
        rw [← htz, hgslot] at hp'
        rcases pushAll_frontier hp p hp' with hv | hv
        · exact Or.inl hv
        · exact Or.inr ⟨p.2, 0, hv⟩
      · exfalso
        rw [getD_set_ne _ _ _ _ _ (by omega)] at hvu
        rw [List.length_set] at hu
        rw [hvlen, getD_replicate_lt _ _ _ _ (by rw [hvlen, List.length_replicate] at hu; omega)] at hvu
        cases hvu
    · show totalEntries (initState n).mst_adjacency_list + 2 =
        2 * countTrue ((initState n).visited.set (0 : Int).toNat true)
      rw [show (initState n).mst_adjacency_list = List.replicate n.toNat [] from rfl,
        totalEntries_replicate,
        countTrue_set_true _ _ h0l (by rw [htz, hvlen, getD_replicate_lt _ _ _ _ (by omega)]),
        hvlen, countTrue_replicate_false]
    · intro v hv0 hvn hvis
      by_cases hvt : v.toNat = 0
      · have : v = 0 := by omega
        subst this
        exact Relation.ReflTransGen.refl
      · exfalso
        rw [getD_set_ne _ _ _ _ _ (by omega)] at hvis
        rw [hvlen, getD_replicate_lt _ _ _ _ (by omega)] at hvis
        cases hvis
  · have hlen1 := pushAll_length hp
    have hpot := potential_set_true (initState n).visited adj (0 : Int).toNat
      h0l (by rw [htz, hvlen, getD_replicate_lt _ _ _ _ (by omega)]) h0a
    have hple := potential_le_totalEntries (initState n).visited adj
    have hgslot : adj.getD (0 : Int).toNat [] = adj.get ⟨(0 : Int).toNat, h0a⟩ :=
      getD_eq_get _ _ _ h0a
    rw [hgslot] at hpot
    show pq1.length + potential ((initState n).visited.set (0 : Int).toNat true) adj ≤
      totalEntries adj
    simp only [List.length_nil] at hlen1
    omega

/-- Claim C1 assembled: for a connected well-formed graph on `n ≥ 1` vertices,
`compute_mst` succeeds, its MST structure carries `2 * (n - 1)` entries
(`n - 1` undirected edges), twice the cost is the summed entry weight, the
selected edges span all vertices from `0`, and every vertex ends up
visited. -/
theorem prim_connected (n : Int) (adj : List (List (Int × Int)))
    (hn : 1 ≤ n) (hlen : adj.length = n.toNat) (hWF : WFNbrs n adj)
    (hconn : ∀ v : Int, 0 ≤ v → v < n → Reach adj 0 v) :
    ∃ t, compute_mst n adj = .ok t ∧
      totalEntries t.mst_adjacency_list = 2 * (n.toNat - 1) ∧
      2 * t.total_cost = weightSum t.mst_adjacency_list ∧
      (∀ v : Int, 0 ≤ v → v < n → Reach t.mst_adjacency_list 0 v) ∧
      ∀ i : Nat, i < t.visited.length → t.visited.getD i false = true := by
  obtain ⟨s1, hstep1, hI1, hm1⟩ := first_step hn hlen hWF
  obtain ⟨u, hu, hIu, hcu⟩ := mstLoop_run (LoopInv n adj)
    (fun s hP hc => mstStep_loopInv hlen hWF hc hP)
    (totalEntries adj + 1) s1 hI1 (by omega)
  have hc0 : loopCond n (initState n) := by
    constructor
    · intro hcon
      cases hcon
    · show ((countTrue (initState n).visited : Nat) : Int) < n
      rw [show (initState n).visited = List.replicate n.toNat false from rfl,
        countTrue_replicate_false]
      omega
  have hloop : mstLoop n adj (initFuel adj) (initState n) = .ok u := by
    rw [show initFuel adj = (totalEntries adj + 1) + 1 from rfl, mstLoop_succ,
      if_pos hc0, hstep1]
    exact hu
  have hB : BaseInv u :=
    mstLoop_preserves BaseInv (fun s s' hs hB => mstStep_baseInv hs hB) hloop
      (baseInv_init n)
  have hall : ∀ i : Nat, i < u.visited.length → u.visited.getD i false = true := by
    by_cases hcount : (countTrue u.visited : Int) < n
    · have hpqe : u.priority_queue = [] := by
        by_contra hne
        exact hcu ⟨hne, hcount⟩
      have hclosed : ∀ (v : Int), Reach adj 0 v → 0 ≤ v → v < n →
          u.visited.getD v.toNat false = true := by
        intro v hv
        have hv' : Relation.ReflTransGen (adjStepRel adj) 0 v := hv
        clear hv
        induction hv' with
        | refl =>
          intro h1 h2
          exact hIu.v0
        | tail hab hbc ih =>
          rename_i b c
          intro hc0' hcn
          obtain ⟨hb0, wgt, hmem⟩ := hbc
          have hbn : b < n := by
            by_contra hge
            push_neg at hge
            rw [getD_of_le _ _ _ (by rw [hlen]; omega)] at hmem
            cases hmem
          have hvb := ih hb0 hbn
          rcases hIu.frontier b.toNat (by rw [hIu.vlen]; omega) hvb (c, wgt) hmem
            with h | ⟨cc, qq, hqmem⟩
          · exact h
          · rw [hpqe] at hqmem
            cases hqmem
      intro i hi
      have hin : ((i : Nat) : Int) < n := by
        rw [hIu.vlen] at hi
        omega
      have := hclosed i (hconn i (by omega) hin) (by omega) hin
      simpa using this
    · have hcnt : countTrue u.visited = u.visited.length := by
        have hle := countTrue_le_length u.visited
        have hvl := hIu.vlen
        omega
      exact countTrue_eq_length_all u.visited hcnt
  have hcnt2 : countTrue u.visited = n.toNat := by
    rw [countTrue_eq_length_of_all u.visited hall, hIu.vlen]
  refine ⟨{ u with trace := u.trace ++ [totalCostLine u.total_cost] ++
      print_adjacency_list u.mst_adjacency_list "MST Graph - Adjacency List" },
    ?_, ?_, ?_, ?_, ?_⟩
  · unfold compute_mst
    rw [if_neg (show ¬ n = 0 by omega), hloop]
  · show totalEntries u.mst_adjacency_list = 2 * (n.toNat - 1)
    have := hIu.countEq
    omega
  · exact hB.costEq
  · intro v hv0 hvn
    refine hIu.reach v hv0 hvn ?_
    exact hall v.toNat (by rw [hIu.vlen]; omega)
  · exact hall

/-! ### The claims -/

/-- Claim C6: for `numVertices = 0`, `computeMST` emits the "no MST"
diagnostic, selects no edges, has `totalCost` 0, and performs no further
processing (the branch returns immediately; no error is possible). -/
theorem claim_C6 : ∀ adjacency_list : List (List (Int × Int)),
    compute_mst 0 adjacency_list =
      .ok ⟨[], [], [], 0, ["This is an empty graph - No MST"]⟩ :=
  fun _ => rfl

/-- Claim C7: for every negative `numVertices` the core handles the input
without failing: `validateAndBuild` returns an empty adjacency structure and
rejects every candidate edge (with the invalid-endpoint diagnostic), and
`computeMST`'s main loop runs zero iterations (its state is untouched: no
edges, `totalCost` 0, only the header, total-cost and listing-title trace
lines), returning normally. -/
theorem claim_C7 : ∀ (num_vertices : Int) (edges : List (Int × Int × Int))
    (adjacency_list : List (List (Int × Int))), num_vertices < 0 →
    build_adjacency_list num_vertices edges =
      ⟨[], edges.map (fun e => invalidVortexLine e.1 e.2.1 e.2.2)⟩ ∧
    compute_mst num_vertices adjacency_list = .ok ⟨[], [(0, 0, -1)], [], 0,
      ["Minimum Spanning Tree", "Total cost of MST: 0",
       "MST Graph - Adjacency List"]⟩ :=
  fun n edges adj hn =>
    ⟨build_adjacency_list_neg n edges hn, compute_mst_neg n adj hn⟩

/-- Witness for C7 at `numVertices = -1`. -/
theorem claim_C7_witness :
    build_adjacency_list (-1) [((0 : Int), (1 : Int), (2 : Int))] =
      ⟨[], [invalidVortexLine 0 1 2]⟩ ∧
    compute_mst (-1) [[((0 : Int), (5 : Int))]] = .ok ⟨[], [(0, 0, -1)], [], 0,
      ["Minimum Spanning Tree", "Total cost of MST: 0",
       "MST Graph - Adjacency List"]⟩ :=
  claim_C7 (-1) [(0, 1, 2)] [[(0, 5)]] (by decide)

/-- Claim C3: with `numVertices > 0`, each edge processed by
`validateAndBuild` is handled independently: an out-of-range endpoint is
rejected with the invalid-endpoint diagnostic and adds nothing (in particular
`fromVertex = numVertices`); in-range endpoints with `weight ≤ 0` are rejected
as invalid weight; in-range endpoints with `weight ≥ 1` are accepted and both
directed entries are added (in particular `fromVertex = numVertices - 1` with
weight 1); and processing an edge list always continues with the remaining
edges whatever the decision on the first one. -/
theorem claim_C3 : ∀ num_vertices : Int, 0 < num_vertices →
    ∀ (s : BuildState) (f t w : Int),
    ((f < 0 ∨ t < 0 ∨ f ≥ num_vertices ∨ t ≥ num_vertices) →
      processEdge num_vertices s (f, t, w) =
        { s with trace := s.trace ++ [invalidVortexLine f t w] }) ∧
    (0 ≤ f → f < num_vertices → 0 ≤ t → t < num_vertices → w ≤ 0 →
      processEdge num_vertices s (f, t, w) =
        { s with trace := s.trace ++ [invalidWeightLine f t w] }) ∧
    (0 ≤ f → f < num_vertices → 0 ≤ t → t < num_vertices → 1 ≤ w →
      processEdge num_vertices s (f, t, w) =
        ⟨appendAtD (appendAtD s.adjacency_list f (t, w)) t (f, w),
         s.trace ++ [edgeAddedLine f t w, edgeAddedLine t f w]⟩) ∧
    (0 ≤ f → f < num_vertices → 0 ≤ t → t < num_vertices → 1 ≤ w →
      s.adjacency_list.length = num_vertices.toNat →
      (t, w) ∈ (processEdge num_vertices s (f, t, w)).adjacency_list.getD f.toNat [] ∧
      (f, w) ∈ (processEdge num_vertices s (f, t, w)).adjacency_list.getD t.toNat []) ∧
    ∀ (e : Int × Int × Int) (rest : List (Int × Int × Int)) (s0 : BuildState),
      List.foldl (processEdge num_vertices) s0 (e :: rest) =
        List.foldl (processEdge num_vertices) (processEdge num_vertices s0 e) rest := by
  intro n hn s f t w
  refine ⟨?_, ?_, ?_, ?_, fun _ _ _ => rfl⟩
  · intro h
    exact processEdge_vortex s (by omega) h
  · intro h1 h2 h3 h4 hw
    exact processEdge_weight s (by omega) (by omega) hw
  · intro h1 h2 h3 h4 hw
    exact processEdge_accept s (by omega) (by omega) (by omega)
  · intro h1 h2 h3 h4 hw hlen
    rw [processEdge_accept s (by omega) (by omega) (by omega)]
    constructor
    · exact mem_appendAtD_mono _ _ (mem_appendAtD_self _ (by rw [hlen]; omega))
    · exact mem_appendAtD_self _ (by rw [length_appendAtD, hlen]; omega)

/-- Witness for C3 at `numVertices = 2`, exercising the boundary endpoint
`fromVertex = numVertices`, weights `0` and `-1`, and an accepted edge with
`fromVertex = numVertices - 1`, weight 1. -/
theorem claim_C3_witness :
    processEdge 2 ⟨[[], []], []⟩ ((2 : Int), (0 : Int), (1 : Int)) =
      ⟨[[], []], [invalidVortexLine 2 0 1]⟩ ∧
    processEdge 2 ⟨[[], []], []⟩ ((1 : Int), (0 : Int), (0 : Int)) =
      ⟨[[], []], [invalidWeightLine 1 0 0]⟩ ∧
    processEdge 2 ⟨[[], []], []⟩ ((1 : Int), (0 : Int), (-1 : Int)) =
      ⟨[[], []], [invalidWeightLine 1 0 (-1)]⟩ ∧
    processEdge 2 ⟨[[], []], []⟩ ((1 : Int), (0 : Int), (1 : Int)) =
      ⟨[[(1, 1)], [(0, 1)]], [edgeAddedLine 1 0 1, edgeAddedLine 0 1 1]⟩ ∧
    ((0 : Int), (1 : Int)) ∈
      ((processEdge 2 ⟨[[], []], []⟩ ((1 : Int), (0 : Int), (1 : Int))).adjacency_list.getD 1 []) := by
  have ha := claim_C3 2 (by decide) ⟨[[], []], []⟩ 2 0 1
  have hb := claim_C3 2 (by decide) ⟨[[], []], []⟩ 1 0 0
  have hc := claim_C3 2 (by decide) ⟨[[], []], []⟩ 1 0 (-1)
  have hd := claim_C3 2 (by decide) ⟨[[], []], []⟩ 1 0 1
  refine ⟨ha.1 (by decide), hb.2.1 (by decide) (by decide) (by decide) (by decide) (by decide),
    hc.2.1 (by decide) (by decide) (by decide) (by decide) (by decide),
    ?_, ?_⟩
  · have := hd.2.2.1 (by decide) (by decide) (by decide) (by decide) (by decide)
    rw [this]
    decide
  · have := (hd.2.2.2.1 (by decide) (by decide) (by decide) (by decide) (by decide)
      (by decide)).1
    exact this

/-- Claim C8: a self-loop edge `(v, v, w)` with `v` in range and positive
weight is accepted by the builder and the pair `(v, w)` is appended twice to
slot `v`, both per-edge and for a whole `validateAndBuild` run on that
edge. -/
theorem claim_C8 : ∀ (num_vertices v w : Int) (s : BuildState),
    0 ≤ v → v < num_vertices → 1 ≤ w →
    s.adjacency_list.length = num_vertices.toNat →
    ((processEdge num_vertices s (v, v, w)).adjacency_list.getD v.toNat [] =
      s.adjacency_list.getD v.toNat [] ++ [(v, w), (v, w)] ∧
     (processEdge num_vertices s (v, v, w)).trace =
      s.trace ++ [edgeAddedLine v v w, edgeAddedLine v v w]) ∧
    (build_adjacency_list num_vertices [(v, v, w)]).adjacency_list.getD v.toNat [] =
      [(v, w), (v, w)] := by
  intro n v w s h0 hvn hw hlen
  have key : ∀ s' : BuildState, s'.adjacency_list.length = n.toNat →
      (processEdge n s' (v, v, w)).adjacency_list.getD v.toNat [] =
        s'.adjacency_list.getD v.toNat [] ++ [(v, w), (v, w)] ∧
      (processEdge n s' (v, v, w)).trace =
        s'.trace ++ [edgeAddedLine v v w, edgeAddedLine v v w] := by
    intro s' hlen'
    have hvl : v.toNat < s'.adjacency_list.length := by rw [hlen']; omega
    rw [processEdge_accept s' (by omega) (by omega) (by omega)]
    constructor
    · show (appendAtD (appendAtD s'.adjacency_list v (v, w)) v (v, w)).getD v.toNat [] = _
      unfold appendAtD
      rw [getD_set_self _ _ _ _ (by rw [List.length_set]; exact hvl),
        getD_set_self _ _ _ _ hvl]
      simp
    · rfl
  refine ⟨key s hlen, ?_⟩
  show (List.foldl (processEdge n) ⟨List.replicate n.toNat [], []⟩ [(v, v, w)]).adjacency_list.getD v.toNat [] = _
  rw [List.foldl_cons, List.foldl_nil,
    (key ⟨List.replicate n.toNat [], []⟩ (by simp)).1, getD_replicate_nil]
  rfl

/-- Witness for C8 at `numVertices = 2`, `v = 0`, `w = 3`. -/
theorem claim_C8_witness :
    ((processEdge 2 ⟨[[], []], []⟩ ((0 : Int), (0 : Int), (3 : Int))).adjacency_list.getD 0 [] =
      [] ++ [(0, 3), (0, 3)] ∧
     (processEdge 2 ⟨[[], []], []⟩ ((0 : Int), (0 : Int), (3 : Int))).trace =
      [] ++ [edgeAddedLine 0 0 3, edgeAddedLine 0 0 3]) ∧
    (build_adjacency_list 2 [((0 : Int), (0 : Int), (3 : Int))]).adjacency_list.getD 0 [] =
      [(0, 3), (0, 3)] :=
  claim_C8 2 0 3 ⟨[[], []], []⟩ (by decide) (by decide) (by decide) (by decide)

/-- Claim C4: the adjacency structure built by `validateAndBuild` and the MST
structure produced by `computeMST` are symmetric: an entry `(v, w)` in slot
`u` is mirrored by `(u, w)` in slot `v`. -/
theorem claim_C4 :
    (∀ (num_vertices : Int) (edges : List (Int × Int × Int)),
      SymmAdj (build_adjacency_list num_vertices edges).adjacency_list) ∧
    ∀ (num_vertices : Int) (adjacency_list : List (List (Int × Int)))
      (t : MSTState), compute_mst num_vertices adjacency_list = .ok t →
      SymmAdj t.mst_adjacency_list := by
  constructor
  · exact build_adjacency_list_symm
  · intro n adj t h
    exact (compute_mst_ok_baseInv h).symm

/-- Witness for C4 on a concrete build and a concrete MST run. -/
theorem claim_C4_witness :
    SymmAdj (build_adjacency_list 3 [((0 : Int), (1 : Int), (5 : Int)), (0, 1, 2)]).adjacency_list ∧
    SymmAdj (⟨[true, true], [], [[(1, 1)], [(0, 1)]], 1,
      ["Minimum Spanning Tree", "Edge: 1 - 0 weight: 1", "Total cost of MST: 1",
       "MST Graph - Adjacency List", "Adj[0] -> (1, 1)", "Adj[1] -> (0, 1)"]⟩ :
        MSTState).mst_adjacency_list :=
  ⟨claim_C4.1 3 [(0, 1, 5), (0, 1, 2)],
   claim_C4.2 2 (build_adjacency_list 2 [(0, 0, 3), (0, 1, 1)]).adjacency_list _
     (by decide)⟩

/-- Claim C10: self-loops never enter the MST: a successful `computeMST` run
yields a structure with no entry `(v, w)` in slot `v`; moreover twice the
reported cost is the summed weight of the structure's entries, so self-loop
entries of the input adjacency never contribute to `totalCost`. -/
theorem claim_C10 : ∀ (num_vertices : Int)
    (adjacency_list : List (List (Int × Int))) (t : MSTState),
    compute_mst num_vertices adjacency_list = .ok t →
    (∀ (i : Nat) (v w : Int),
      (v, w) ∈ t.mst_adjacency_list.getD i [] → v ≠ (i : Int)) ∧
    2 * t.total_cost = weightSum t.mst_adjacency_list := by
  intro n adj t h
  have hB := compute_mst_ok_baseInv h
  exact ⟨hB.noSelf, hB.costEq⟩

/-- Witness for C10 on a run whose input adjacency contains a self-loop. -/
theorem claim_C10_witness :
    (∀ (i : Nat) (v w : Int),
      (v, w) ∈ (⟨[true, true], [], [[(1, 1)], [(0, 1)]], 1,
        ["Minimum Spanning Tree", "Edge: 1 - 0 weight: 1", "Total cost of MST: 1",
         "MST Graph - Adjacency List", "Adj[0] -> (1, 1)", "Adj[1] -> (0, 1)"]⟩ :
          MSTState).mst_adjacency_list.getD i [] → v ≠ (i : Int)) ∧
    2 * (⟨[true, true], [], [[(1, 1)], [(0, 1)]], 1,
        ["Minimum Spanning Tree", "Edge: 1 - 0 weight: 1", "Total cost of MST: 1",
         "MST Graph - Adjacency List", "Adj[0] -> (1, 1)", "Adj[1] -> (0, 1)"]⟩ :
          MSTState).total_cost =
      weightSum (⟨[true, true], [], [[(1, 1)], [(0, 1)]], 1,
        ["Minimum Spanning Tree", "Edge: 1 - 0 weight: 1", "Total cost of MST: 1",
         "MST Graph - Adjacency List", "Adj[0] -> (1, 1)", "Adj[1] -> (0, 1)"]⟩ :
          MSTState).mst_adjacency_list :=
  claim_C10 2 (build_adjacency_list 2 [(0, 0, 3), (0, 1, 1)]).adjacency_list _
    (by decide)

/-- Claim C2: on `numVertices = 3` with parallel edges `(0,1,5)` and
`(0,1,2)`, `computeMST` selects only the cheaper parallel edge `(0,1)` with
weight 2 via lazy deletion, `totalCost` is 2, the result has exactly one edge
(two directed entries), vertex 2 is unreached and no error is raised; and in
general unreached (unvisited) vertices are simply absent from the result. -/
theorem claim_C2 :
    compute_mst 3 (build_adjacency_list 3 [(0, 1, 5), (0, 1, 2)]).adjacency_list =
      .ok ⟨[true, true, false], [], [[(1, 2)], [(0, 2)], []], 2,
        ["Minimum Spanning Tree", "Edge: 1 - 0 weight: 2", "Total cost of MST: 2",
         "MST Graph - Adjacency List", "Adj[0] -> (1, 2)", "Adj[1] -> (0, 2)",
         "Adj[2] -> "]⟩ ∧
    ∀ (num_vertices : Int) (adjacency_list : List (List (Int × Int)))
      (t : MSTState), compute_mst num_vertices adjacency_list = .ok t →
      ∀ i : Nat, t.visited.getD i false = false →
        t.mst_adjacency_list.getD i [] = [] := by
  constructor
  · decide
  · intro n adj t h i hi
    exact (compute_mst_ok_baseInv h).emptyUnvisited i hi

/-- Witness for C2: the unreached vertex 2 has an empty slot in the result of
the parallel-edge scenario. -/
theorem claim_C2_witness :
    (⟨[true, true, false], [], [[(1, 2)], [(0, 2)], []], 2,
      ["Minimum Spanning Tree", "Edge: 1 - 0 weight: 2", "Total cost of MST: 2",
       "MST Graph - Adjacency List", "Adj[0] -> (1, 2)", "Adj[1] -> (0, 2)",
       "Adj[2] -> "]⟩ : MSTState).mst_adjacency_list.getD 2 [] = [] :=
  claim_C2.2 3 (build_adjacency_list 3 [(0, 1, 5), (0, 1, 2)]).adjacency_list _
    claim_C2.1 2 (by decide)

/-- Claim C9: `computeMST` terminates on every finite input: pushes over a run
are bounded by the number of adjacency entries plus one (the sentinel), so the
fuel `initFuel = totalEntries + 2` is never exhausted and adding any extra
fuel does not change the outcome of the loop. -/
theorem claim_C9 : ∀ (num_vertices : Int)
    (adjacency_list : List (List (Int × Int))),
    compute_mst num_vertices adjacency_list ≠ .error .outOfFuel ∧
    ∀ k : Nat,
      mstLoop num_vertices adjacency_list (initFuel adjacency_list + k)
        (initState num_vertices) =
      mstLoop num_vertices adjacency_list (initFuel adjacency_list)
        (initState num_vertices) := by
  intro n adj
  have hp := potential_le_totalEntries (List.replicate n.toNat false) adj
  have hm : stateMeasure adj (initState n) < initFuel adj := by
    simp only [stateMeasure, initState, initFuel, List.length_singleton]
    omega
  obtain ⟨h1, h2⟩ := mstLoop_adequate n adj (initFuel adj) (initState n) hm
  refine ⟨?_, h2⟩
  unfold compute_mst
  split
  · intro hc
    cases hc
  · cases hres : mstLoop n adj (initFuel adj) (initState n) with
    | error e =>
      intro hc
      cases hc
      exact h1 hres
    | ok u =>
      intro hc
      cases hc

/-- Claim C1: for every connected graph on `numVertices = V ≥ 1` vertices
(well-formed adjacency structure with `V` slots, every vertex reachable from
vertex 0), `computeMST` succeeds and selects exactly `V - 1` edges forming a
tree spanning all vertices — the symmetric result structure holds
`2 * (V - 1)` entries, i.e. `V - 1` undirected edges, which connect every
vertex to vertex 0 (a connected graph on `V` vertices with `V - 1` edges is a
tree) — and the reported `totalCost` equals the sum of the selected edges'
weights (each edge's weight is stored twice in the symmetric structure, so
twice the cost equals the structure's weight sum). -/
theorem claim_C1 : ∀ (num_vertices : Int)
    (adjacency_list : List (List (Int × Int))), 1 ≤ num_vertices →
    adjacency_list.length = num_vertices.toNat →
    WFNbrs num_vertices adjacency_list →
    (∀ v : Int, 0 ≤ v → v < num_vertices → Reach adjacency_list 0 v) →
    ∃ t, compute_mst num_vertices adjacency_list = .ok t ∧
      totalEntries t.mst_adjacency_list = 2 * (num_vertices.toNat - 1) ∧
      2 * t.total_cost = weightSum t.mst_adjacency_list ∧
      (∀ v : Int, 0 ≤ v → v < num_vertices → Reach t.mst_adjacency_list 0 v) ∧
      ∀ i : Nat, i < t.visited.length → t.visited.getD i false = true :=
  prim_connected

/-- Witness for C1 on the connected two-vertex graph with one edge. -/
theorem claim_C1_witness :
    ∃ t, compute_mst 2 [[((1 : Int), (1 : Int))], [((0 : Int), (1 : Int))]] = .ok t ∧
      totalEntries t.mst_adjacency_list = 2 * ((2 : Int).toNat - 1) ∧
      2 * t.total_cost = weightSum t.mst_adjacency_list ∧
      (∀ v : Int, 0 ≤ v → v < 2 → Reach t.mst_adjacency_list 0 v) ∧
      ∀ i : Nat, i < t.visited.length → t.visited.getD i false = true := by
  refine claim_C1 2 [[(1, 1)], [(0, 1)]] (by decide) (by decide)
    (by unfold WFNbrs; decide) ?_
  intro v h0 h2
  have hv : v = 0 ∨ v = 1 := by omega
  rcases hv with rfl | rfl
  · exact Relation.ReflTransGen.refl
  · exact Relation.ReflTransGen.single ⟨by decide, 1, by decide⟩

/-- Claim C5: `computeMST` is deterministic — two calls on the same input are
identical — and the priority queue pops in the natural order of the tuple
`(weight, vertex, predecessor)`: the initial queue is sorted under `tripleLe`,
every successful step keeps it sorted, and the head of a sorted queue (the
entry popped next) relates to every later entry by weight first, then vertex
(so among equal weights the lower vertex index pops first), then
predecessor. -/
theorem claim_C5 :
    (∀ (num_vertices : Int) (adjacency_list : List (List (Int × Int))),
      compute_mst num_vertices adjacency_list =
        compute_mst num_vertices adjacency_list) ∧
    (∀ num_vertices : Int,
      List.Pairwise tripleLe (initState num_vertices).priority_queue) ∧
    (∀ (adjacency_list : List (List (Int × Int))) (s s' : MSTState),
      List.Pairwise tripleLe s.priority_queue →
      mstStep adjacency_list s = .ok s' →
      List.Pairwise tripleLe s'.priority_queue) ∧
    ∀ (w v p w' v' p' : Int) (rest : List (Int × Int × Int)),
      List.Pairwise tripleLe ((w, v, p) :: rest) → (w', v', p') ∈ rest →
      w < w' ∨ (w = w' ∧ (v < v' ∨ (v = v' ∧ p ≤ p'))) := by
  refine ⟨fun _ _ => rfl, fun n => ?_, ?_, ?_⟩
  · simp [initState]
  · intro adj s s' hs h
    obtain ⟨w, t, f, rest, hpq, h0, hl, hcase⟩ := mstStep_ok_elim h
    rw [hpq] at hs
    rcases hcase with ⟨hvis, rfl⟩ | ⟨hvis, mst1, cost1, trace1, slot, pq1, hse, hga, hp, rfl⟩
    · exact hs.of_cons
    · exact pushAll_pairwise hp hs.of_cons
  · intro w v p w' v' p' rest hs hmem
    exact (List.pairwise_cons.mp hs).1 (w', v', p') hmem

/-- Witness for C5 on concrete queues and a concrete step. -/
theorem claim_C5_witness :
    (compute_mst 1 [[]] = compute_mst 1 [[]]) ∧
    List.Pairwise tripleLe (initState 1).priority_queue ∧
    List.Pairwise tripleLe
      (⟨[true, false], [(1, 1, 0)], [[], []], 0, []⟩ : MSTState).priority_queue ∧
    ((1 : Int) < 1 ∨ ((1 : Int) = 1 ∧
      ((0 : Int) < 2 ∨ ((0 : Int) = 2 ∧ (0 : Int) ≤ 0)))) := by
  refine ⟨claim_C5.1 1 [[]], claim_C5.2.1 1, ?_, ?_⟩
  · exact claim_C5.2.2.1 [[(1, 1)], [(0, 1)]]
      ⟨[false, false], [(0, 0, -1)], [[], []], 0, []⟩ _ (by decide) (by decide)
  · exact claim_C5.2.2.2 1 0 0 1 2 0 [(1, 2, 0)] (by decide) (by decide)

end MST
